import Mathlib

/-!
Verification development for the pedgraph repository.

The Python sources are embedded shallowly:
* `parseLine` / `csv_reader` embed `BuildDB.csv_reader` of `build_db.py`;
* `Record` / `Genealogy` embed `DataStructures.py`;
* `Graph`, `load_csv`, `label_founders`, `label_leaves` embed `BuildDB.py`;
* `get_probands`, `get_ancestors`, `get_records`, `reconstruct_genealogy`
  embed `ReconstructGenealogy.py`.
-/

namespace Pedgraph

/-! ## String helpers, mirroring Python `str.strip` and `str.split` -/

/-- Python whitespace characters recognised by `str.strip()` (ASCII part). -/
def isPySpace (c : Char) : Bool :=
  c = ' ' || c = '\t' || c = '\n' || c = '\r' || c = '\x0b' || c = '\x0c'

/-- Strip leading and trailing whitespace from a character list. -/
def stripChars (l : List Char) : List Char :=
  ((l.dropWhile isPySpace).reverse.dropWhile isPySpace).reverse

/-- Embeds Python `line.strip()`. -/
def pyStrip (s : String) : String := ⟨stripChars s.data⟩

/-- Split a character list at every occurrence of `sep`, keeping empty chunks,
exactly like Python `str.split(sep)` for a one-character separator. -/
def splitChar (sep : Char) : List Char → List (List Char)
  | [] => [[]]
  | c :: rest =>
    if c = sep then [] :: splitChar sep rest
    else
      match splitChar sep rest with
      | [] => [[c]]
      | f :: fs => (c :: f) :: fs

/-- Embeds Python `line.split(sep)`. -/
def pySplit (s : String) (sep : Char) : List String :=
  (splitChar sep s.data).map (fun l => ⟨l⟩)

/-! ## Pedigree rows and CSV parsing (`build_db.py`, `BuildDB.csv_reader`) -/

/-- One parsed pedigree row `(ind, father, mother, sex)`. -/
structure Row where
  ind : String
  father : String
  mother : String
  sex : String
deriving DecidableEq, Repr

def malformedMsg : String := "MalformedRecordError"

/-- Embeds the body of `BuildDB.csv_reader` for a single line: strip the line,
split on the separator, truncate to four fields, unpack (a Python `ValueError`
on fewer than four fields becomes `.error`), and strip each field. -/
def parseLine (sep : Char) (line : String) : Except String Row :=
  match (pySplit (pyStrip line) sep).take 4 with
  | [a, b, c, d] => .ok ⟨pyStrip a, pyStrip b, pyStrip c, pyStrip d⟩
  | _ => .error malformedMsg

/-- Parse a list of lines in order; the first malformed line aborts the
whole read (the Python generator raises, and its consumers run it to
completion, so one bad row aborts the entire ingestion call). -/
def parseAll (sep : Char) : List String → Except String (List Row)
  | [] => .ok []
  | l :: ls => do
    let r ← parseLine sep l
    let rs ← parseAll sep ls
    pure (r :: rs)

/-- Embeds `BuildDB.csv_reader`: optionally drop the header line, then parse
every remaining line. -/
def csv_reader (header : Bool) (sep : Char) (lines : List String) :
    Except String (List Row) :=
  parseAll sep (if header then lines.drop 1 else lines)

/-! ## Records and genealogies (`DataStructures.py`) -/

/-- Embeds `DataStructures.Record`; every field defaults to `None` in Python,
hence `Option String`. -/
structure Record where
  ind : Option String
  father : Option String
  mother : Option String
  sex : Option String
deriving DecidableEq, Repr

/-- Embeds `DataStructures.Genealogy`: a Python dict from individual ID to
`Record` (an association list preserving insertion order, updated in place)
together with the separately maintained `size` counter. -/
structure Genealogy where
  data : List (String × Record)
  size : Nat
deriving DecidableEq, Repr

def emptyGenealogy : Genealogy := ⟨[], 0⟩

/-- Python `dict.get(key)`. -/
def dictGet (d : List (String × Record)) (k : String) : Option Record :=
  (d.find? (fun p => decide (p.1 = k))).map (fun p => p.2)

/-- Python `dict.__setitem__`: an existing key keeps its position and gets the
new value; a fresh key is appended. -/
def dictSet (d : List (String × Record)) (k : String) (v : Record) :
    List (String × Record) :=
  if (d.find? (fun p => decide (p.1 = k))).isSome then
    d.map (fun p => if p.1 = k then (k, v) else p)
  else d ++ [(k, v)]

/-- Embeds `Genealogy.__getitem__` (`self.data.get(key)`). -/
def Genealogy.getitem (g : Genealogy) (k : String) : Option Record :=
  dictGet g.data k

/-- Embeds `Genealogy.get` (`return self[ind]`). -/
def Genealogy.get (g : Genealogy) (k : String) : Option Record :=
  g.getitem k

/-- Embeds `Genealogy.__setitem__`: detect an overwrite via `self.get(key)`,
store the value, and bump `size` only for a fresh key.  The returned boolean
is the overwrite flag, the condition under which the Python code logs its
overwrite warning. -/
def Genealogy.setitem (g : Genealogy) (k : String) (v : Record) :
    Genealogy × Bool :=
  let overwrite := (g.get k).isSome
  (⟨dictSet g.data k v, if overwrite then g.size else g.size + 1⟩, overwrite)

/-- Embeds `Genealogy.add` (`self[record.ind] = record`).  A record whose
`ind` is `None` makes Python's `check_type` raise, modelled by `none`. -/
def Genealogy.add (g : Genealogy) (r : Record) : Option (Genealogy × Bool) :=
  match r.ind with
  | some k => some (g.setitem k r)
  | none => none

/-- The list of individual IDs stored in a genealogy. -/
def Genealogy.keys (g : Genealogy) : List String := g.data.map (fun p => p.1)

/-! ## The persisted Neo4j graph (`BuildDB.py`) -/

/-- The four relationship types used by the ingestion queries. -/
inductive EdgeType
  | is_child
  | is_father
  | is_mother
  | is_parent
deriving DecidableEq, Repr

/-- A directed typed relationship, identified by the `ind` properties of its
endpoint nodes (the store enforces a uniqueness constraint on `ind`). -/
structure Edge where
  src : String
  typ : EdgeType
  dst : String
deriving DecidableEq, Repr

def personLabel : String := "Person"
def founderLabel : String := "Founder"
def leafLabel : String := "Leaf"

/-- A stored node: the `ind` and `sex` properties plus its labels. -/
structure Node where
  ind : String
  sex : Option String
  labels : List String
deriving DecidableEq, Repr

/-- The persisted graph state: nodes plus typed directed edges. -/
structure Graph where
  nodes : List Node
  edges : List Edge
deriving DecidableEq, Repr

def emptyGraph : Graph := ⟨[], []⟩

/-- A node matches the Cypher pattern `(:Person {ind: x})`. -/
def matchesPerson (n : Node) (ind : String) : Bool :=
  decide (n.ind = ind) && n.labels.contains personLabel

/-- Whether some `(:Person {ind: x})` node exists. -/
def personExists (g : Graph) (x : String) : Bool :=
  g.nodes.any (fun n => matchesPerson n x)

/-- Cypher `MERGE (p:Person {ind: x})`: reuse a matching node or append a bare
new one carrying only the `Person` label. -/
def mergePersonNode (g : Graph) (ind : String) : Graph :=
  if personExists g ind then g
  else { g with nodes := g.nodes ++ [⟨ind, none, [personLabel]⟩] }

/-- Cypher `SET person.sex = s` on the `(:Person {ind: x})` match. -/
def setSex (g : Graph) (ind s : String) : Graph :=
  { g with nodes := g.nodes.map (fun n =>
      if matchesPerson n ind then { n with sex := some s } else n) }

/-- Cypher `MERGE (a)-[:t]->(b)`: create the edge unless it already exists. -/
def mergeEdge (g : Graph) (src : String) (t : EdgeType) (dst : String) :
    Graph :=
  if (⟨src, t, dst⟩ : Edge) ∈ g.edges then g
  else { g with edges := g.edges ++ [⟨src, t, dst⟩] }

/-- The node mutations of one `LOAD CSV` iteration in `BuildDB.load_csv`:
`MERGE (person:Person {ind: line.ind}) SET person.sex = line.sex`, then
`MERGE (father:Person {ind: line.father})` and
`MERGE (mother:Person {ind: line.mother})` (unconditionally, sentinel
values included). -/
def loadNodes (g : Graph) (r : Row) : Graph :=
  mergePersonNode
    (mergePersonNode (setSex (mergePersonNode g r.ind) r.ind r.sex) r.father)
    r.mother

/-- The relationship mutations of one `LOAD CSV` iteration: merge the two
`is_child` edges and the `is_father`/`is_mother` edges.  Note that the query
creates no `is_parent` edges. -/
def loadEdges (g : Graph) (r : Row) : Graph :=
  mergeEdge
    (mergeEdge
      (mergeEdge (mergeEdge g r.ind .is_child r.father) r.ind .is_child r.mother)
      r.father .is_father r.ind)
    r.mother .is_mother r.ind

/-- One iteration of the `LOAD CSV` query in `BuildDB.load_csv`: the node
merges followed by the edge merges, in query order. -/
def loadRow (g : Graph) (r : Row) : Graph :=
  loadEdges (loadNodes g r) r

/-- Cypher `MATCH (p {ind: na}) DETACH DELETE p`: remove every node with the
given `ind` together with every edge touching it. -/
def detachDelete (g : Graph) (na : String) : Graph :=
  ⟨g.nodes.filter (fun n => decide (n.ind ≠ na)),
   g.edges.filter (fun e => decide (e.src ≠ na ∧ e.dst ≠ na))⟩

/-- Embeds `BuildDB.load_csv`: run the bulk `LOAD CSV` query over all rows,
then detach-delete the sentinel `na_id` node. -/
def load_csv (g : Graph) (rows : List Row) (na : String) : Graph :=
  detachDelete (rows.foldl loadRow g) na

/-- Whether the node `x` has an outgoing `is_child` edge, the Cypher pattern
`(p)-[:is_child]->()`. -/
def hasOutIsChild (g : Graph) (x : String) : Bool :=
  g.edges.any (fun e => decide (e.src = x ∧ e.typ = EdgeType.is_child))

/-- Whether the node `x` has an incoming `is_child` edge, the Cypher pattern
`(p)<-[:is_child]-()`. -/
def hasInIsChild (g : Graph) (x : String) : Bool :=
  g.edges.any (fun e => decide (e.dst = x ∧ e.typ = EdgeType.is_child))

/-- Cypher `SET p:lab`: add a label to a node's label set. -/
def addLabel (n : Node) (lab : String) : Node :=
  if n.labels.contains lab then n else { n with labels := n.labels ++ [lab] }

/-- The per-node effect of the founder-labelling query: a `Person` node with
no outgoing `is_child` edge gains the `Founder` label. -/
def founderStep (g : Graph) (n : Node) : Node :=
  if n.labels.contains personLabel && !hasOutIsChild g n.ind then
    addLabel n founderLabel
  else n

/-- Embeds `BuildDB.label_founders`:
`MATCH (p:Person) WHERE NOT (p)-[:is_child]->() SET p:Founder`. -/
def label_founders (g : Graph) : Graph :=
  { g with nodes := g.nodes.map (founderStep g) }

/-- The per-node effect of the leaf-labelling query: a `Person` node with no
incoming `is_child` edge gains the `Leaf` label. -/
def leafStep (g : Graph) (n : Node) : Node :=
  if n.labels.contains personLabel && !hasInIsChild g n.ind then
    addLabel n leafLabel
  else n

/-- Embeds `BuildDB.label_leaves`:
`MATCH (p:Person) WHERE NOT (p)<-[:is_child]-() SET p:Leaf`. -/
def label_leaves (g : Graph) : Graph :=
  { g with nodes := g.nodes.map (leafStep g) }

/-- The classification pass of the `BuildDB` constructor: label founders,
then label leaves. -/
def classify (g : Graph) : Graph := label_leaves (label_founders g)

/-! ## Ancestor reconstruction (`ReconstructGenealogy.py`) -/

/-- The child-to-parent step relation: an `is_child` edge from `x` to `y`. -/
def isChildRel (g : Graph) (x y : String) : Prop :=
  (⟨x, EdgeType.is_child, y⟩ : Edge) ∈ g.edges

/-- The direct `is_child` successors (recorded parents) of `x`. -/
def succs (g : Graph) (x : String) : List String :=
  (g.edges.filter
    (fun e => decide (e.src = x ∧ e.typ = EdgeType.is_child))).map (fun e => e.dst)

/-- One saturation step of the reachability computation: add every successor
of the current set that is not in it yet. -/
def stepClosure (g : Graph) (s : List String) : List String :=
  s ++ ((s.flatMap (succs g)).filter (fun y => decide (y ∉ s)))

/-- Iterated saturation with explicit fuel. -/
def closureAux (g : Graph) : Nat → List String → List String
  | 0, s => s
  | n + 1, s => closureAux g n (stepClosure g s)

/-- All nodes reachable from `s` by zero or more `is_child` edges; fuel
`g.edges.length` suffices because every newly added element is the
destination of some edge. -/
def closure (g : Graph) (s : List String) : List String :=
  closureAux g g.edges.length s

/-- Embeds `ReconstructGenealogy.get_probands`:
`UNWIND $inds AS x MATCH (proband:Person {ind: x}) RETURN proband.ind`. -/
def get_probands (g : Graph) (probands : List String) : List String :=
  probands.filter (personExists g)

/-- Embeds `ReconstructGenealogy.get_ancestors`: all `(:Person)` nodes
reachable from an existing proband through one or more `is_child` edges
(`MATCH (proband:Person {ind: x})-[:is_child*]->(parent:Person)
RETURN DISTINCT parent.ind`). -/
def get_ancestors (g : Graph) (probands : List String) : List String :=
  let starts := probands.filter (personExists g)
  let layer1 := (starts.flatMap (succs g)).dedup
  ((closure g layer1).filter (personExists g)).dedup

/-- One row returned by the record query: the child's `ind` and `sex` plus
the optional father and mother `ind`s. -/
structure FetchedRow where
  ind : String
  father : Option String
  mother : Option String
  sex : Option String
deriving DecidableEq, Repr

/-- The sources of all inbound edges of type `t` at `child`. -/
def inEdges (g : Graph) (t : EdgeType) (child : String) : List String :=
  (g.edges.filter (fun e => decide (e.dst = child ∧ e.typ = t))).map (fun e => e.src)

/-- Embeds `ReconstructGenealogy.get_records`: for each requested `ind`,
match the `(:Person)` node, then `OPTIONAL MATCH` one inbound `is_father`
and one inbound `is_mother` edge (a missing match yields `null`, and
multiple matches yield a cartesian product of result rows). -/
def get_records (g : Graph) (inds : List String) : List FetchedRow :=
  inds.flatMap (fun x =>
    match g.nodes.find? (fun n => matchesPerson n x) with
    | none => []
    | some child =>
      let fs := inEdges g .is_father x
      let ms := inEdges g .is_mother x
      let fathers := if fs.isEmpty then [(none : Option String)] else fs.map some
      let mothers := if ms.isEmpty then [(none : Option String)] else ms.map some
      fathers.flatMap (fun f => mothers.map (fun m => ⟨x, f, m, child.sex⟩)))

def zeroStr : String := "0"

/-- Build the `Record` of one fetched row as `reconstruct_genealogy` does:
a missing father or mother becomes the sentinel `"0"`, and the sex is taken
as returned (possibly `null`). -/
def recordOfFetched (r : FetchedRow) : Record :=
  ⟨some r.ind, some (r.father.getD zeroStr), some (r.mother.getD zeroStr), r.sex⟩

/-- Embeds the genealogy-building loop of
`ReconstructGenealogy.reconstruct_genealogy`: add every fetched record to a
fresh `Genealogy` (the `none` fallback of `add` is unreachable because every
fetched record carries an `ind`). -/
def buildGenealogy (records : List FetchedRow) : Genealogy :=
  records.foldl (fun gen r =>
    match gen.add (recordOfFetched r) with
    | some (gen2, _) => gen2
    | none => gen) emptyGenealogy

/-- Embeds `ReconstructGenealogy.reconstruct_genealogy`: collect ancestors,
take the union with the requested probands, fetch the records and assemble
the genealogy. -/
def reconstruct_genealogy (g : Graph) (probands : List String) : Genealogy :=
  let ancestors := get_ancestors g probands
  let inds := (ancestors ++ probands).dedup
  buildGenealogy (get_records g inds)

/-- The quantity `n_missing = len(probands_in_db) - len(self.probands)`
computed by `reconstruct_genealogy`. -/
def n_missing (g : Graph) (probands : List String) : Int :=
  ((get_probands g probands).length : Int) - (probands.length : Int)

/-- Whether `reconstruct_genealogy` logs its missing-proband warning
(`if n_missing > 0`). -/
def missingWarning (g : Graph) (probands : List String) : Bool :=
  decide (0 < n_missing g probands)

def msgNeither : String := "Error: neither ID list or file supplied."
def msgBoth : String := "Error: ID list and ID file supplied. Supply only one."
def msgNameErr : String := "NameError: name 'inds' is not defined"

/-- Embeds `ReconstructGenealogy.__init__`: the two assertions on the
proband arguments, the file-reading branch (which crashes with a `NameError`
on any non-empty file because it appends to the undefined name `inds`), and
the call to `reconstruct_genealogy`. -/
def reconstructInit (g : Graph) (probands : Option (List String))
    (probandsTxt : Option (List String)) : Except String Genealogy :=
  match probands, probandsTxt with
  | none, none => .error msgNeither
  | some _, some _ => .error msgBoth
  | some ps, none => .ok (reconstruct_genealogy g ps)
  | none, some fileLines =>
    if fileLines = [] then .ok (reconstruct_genealogy g [])
    else .error msgNameErr

/-! ## CSV export (`Genealogy.write_csv`) and the full pipeline -/

def noneStr : String := "None"

/-- Python `'%s' % x` for an optional string (`None` prints as `"None"`). -/
def pyFormatOpt (o : Option String) : String := o.getD noneStr

def commaStr : String := ","
def headerStr : String := "ind,father,mother,sex"

/-- The formatted CSV row `'%s,%s,%s,%s' % (ind, father, mother, sex)`. -/
def rowLine (r : Record) : String :=
  pyFormatOpt r.ind ++ commaStr ++ pyFormatOpt r.father ++ commaStr ++
    pyFormatOpt r.mother ++ commaStr ++ pyFormatOpt r.sex

/-- Embeds `Genealogy.write_csv`: the fixed header line followed by one
formatted line per stored record, in insertion order. -/
def Genealogy.csvLines (g : Genealogy) : List String :=
  headerStr :: g.data.map (fun p => rowLine p.2)

/-- The `BuildDB` constructor pipeline: bulk-load the rows into an empty
store, then label founders and leaves. -/
def buildPipeline (rows : List Row) (na : String) : Graph :=
  classify (load_csv emptyGraph rows na)

/-- The identifiers of all nodes labelled `Leaf`. -/
def leafIds (g : Graph) : List String :=
  (g.nodes.filter (fun n => n.labels.contains leafLabel)).map (fun n => n.ind)

/-- The round-trip pipeline of the spec: ingest, reconstruct from all leaf
identifiers, export to CSV, and re-parse the exported CSV. -/
def roundTrip (rows : List Row) : Except String (List Row) :=
  let g := buildPipeline rows zeroStr
  csv_reader true ',' (reconstruct_genealogy g (leafIds g)).csvLines

/-! ## Concrete sample data used by witnesses and counterexamples -/

def s1 : String := "1"
def s2 : String := "2"
def s3 : String := "3"
def s4 : String := "4"
def s5 : String := "5"
def sexF : String := "F"
def sexM : String := "M"

/-- The five-person pedigree of the spec's concrete scenario. -/
def rows5 : List Row :=
  [⟨s1, zeroStr, zeroStr, sexF⟩, ⟨s2, zeroStr, zeroStr, sexM⟩,
   ⟨s3, s1, s2, sexF⟩, ⟨s4, s1, s2, sexM⟩, ⟨s5, s3, s4, sexF⟩]

/-- The five-person pedigree after the full build pipeline. -/
def sampleGraph : Graph := buildPipeline rows5 zeroStr

/-- A one-person graph. -/
def tinyGraph : Graph := ⟨[⟨s1, some sexF, [personLabel]⟩], []⟩

/-- A sequence of `Genealogy.add` operations (each on a record whose `ind`
is present, so the `none` crash branch is never taken). -/
def addAll (gen : Genealogy) (rs : List Record) : Genealogy :=
  rs.foldl (fun g r =>
    match g.add r with
    | some (g2, _) => g2
    | none => g) gen

/-- A genealogy with individual `1` present, used as a concrete input. -/
def gC8 : Genealogy :=
  ⟨[(s1, ⟨some s1, some zeroStr, some zeroStr, some sexF⟩)], 1⟩

/-- A record re-adding the existing key `1` with different fields. -/
def rC8 : Record := ⟨some s1, some zeroStr, some zeroStr, some sexM⟩

/-- Three add operations over two distinct identifiers. -/
def rsC8 : List Record :=
  [⟨some s1, some zeroStr, some zeroStr, some sexF⟩,
   ⟨some s2, some zeroStr, some zeroStr, some sexM⟩,
   ⟨some s1, some zeroStr, some zeroStr, some sexM⟩]

/-- A raw CSV line with five fields and an extra fourth one. -/
def lineA : String := " 1, 2 ,3,F,5"

/-- The second raw field of `lineA`, carrying surrounding whitespace. -/
def sp2 : String := " 2 "

/-- A raw CSV line with only two fields. -/
def lineB : String := "1,2"

/-- Well-formedness of a persisted graph, as Neo4j guarantees it for graphs
built by the ingestion queries: every node carries the `Person` label and
every edge connects existing nodes. -/
def GraphWF (g : Graph) : Prop :=
  (∀ n ∈ g.nodes, n.labels.contains personLabel = true) ∧
  (∀ e ∈ g.edges,
    (∃ n ∈ g.nodes, n.ind = e.src) ∧ ∃ n ∈ g.nodes, n.ind = e.dst)

instance (g : Graph) : Decidable (GraphWF g) := by
  unfold GraphWF
  infer_instance

/-- The four edges the `LOAD CSV` query merges for one row (edges touching
the sentinel node included; those are removed by the final detach-delete). -/
def edgePattern (r : Row) (e : Edge) : Prop :=
  e = ⟨r.ind, EdgeType.is_child, r.father⟩ ∨
  e = ⟨r.ind, EdgeType.is_child, r.mother⟩ ∨
  e = ⟨r.father, EdgeType.is_father, r.ind⟩ ∨
  e = ⟨r.mother, EdgeType.is_mother, r.ind⟩

instance (r : Row) (e : Edge) : Decidable (edgePattern r e) := by
  unfold edgePattern
  infer_instance

/-- A CSV field that survives the parser unchanged: no separator and no
whitespace characters. -/
def cleanField (s : String) : Prop :=
  ∀ c ∈ s.data, ¬c = ',' ∧ isPySpace c = false

instance (s : String) : Decidable (cleanField s) := by
  unfold cleanField
  infer_instance

/-- A pedigree row whose four fields are all clean. -/
def cleanRow (r : Row) : Prop :=
  cleanField r.ind ∧ cleanField r.father ∧ cleanField r.mother ∧
    cleanField r.sex

instance (r : Row) : Decidable (cleanRow r) := by
  unfold cleanRow
  infer_instance

/-- A one-row pedigree whose parents have no rows of their own. -/
def rowsC2 : List Row := [⟨s1, s2, s3, sexF⟩]

/-- The state invariant maintained while `load_csv` folds `loadRow` over the
rows: `P` is the list of rows processed so far. -/
structure LoadInv (g : Graph) (P : List Row) : Prop where
  labels : ∀ n ∈ g.nodes, n.labels = [personLabel]
  indNodup : (g.nodes.map Node.ind).Nodup
  indSet : ∀ x, (∃ n ∈ g.nodes, n.ind = x) ↔
    (∃ r ∈ P, r.ind = x) ∨ ∃ r ∈ P, r.father = x ∨ r.mother = x
  sexOwn : ∀ n ∈ g.nodes, ∀ r ∈ P, r.ind = n.ind → n.sex = some r.sex
  edgeMem : ∀ e, e ∈ g.edges ↔ ∃ r ∈ P, edgePattern r e
  edgeNodup : g.edges.Nodup

/-! ## Helper lemmas -/

theorem stepClosure_nil (g : Graph) : stepClosure g [] = [] := rfl

theorem closureAux_nil (g : Graph) (n : Nat) : closureAux g n [] = [] := by
  induction n with
  | zero => rfl
  | succ n ih => simp [closureAux, stepClosure_nil, ih]

theorem reconstruct_genealogy_nil (g : Graph) :
    reconstruct_genealogy g [] = emptyGenealogy := by
  unfold reconstruct_genealogy get_ancestors closure
  simp [closureAux_nil, get_records, buildGenealogy]

/-! ## Claim C3 -/

/-- Claim C3 counterexample: invoking reconstruction with an empty proband
set does not fail with any error; it succeeds with an empty genealogy. -/
theorem C3_counterexample :
    reconstructInit tinyGraph (some []) none = .ok emptyGenealogy ∧
    ∀ e : String, reconstructInit tinyGraph (some []) none ≠ .error e := by
  have h : reconstructInit tinyGraph (some []) none = .ok emptyGenealogy := rfl
  refine ⟨h, ?_⟩
  intro e he
  rw [h] at he
  exact Except.noConfusion he

/-- Claim C3 (amended): reconstruction invoked with an empty proband set
does not raise any error; for every graph state it succeeds and returns an
empty genealogy.  (The code has no `EmptyProbandSetError`: the constructor
only asserts that exactly one of the two proband arguments is supplied.) -/
theorem C3_empty_probands (g : Graph) :
    reconstructInit g (some []) none = .ok emptyGenealogy := by
  simp [reconstructInit, reconstruct_genealogy_nil]

/-! ## Claim C4 -/

/-- Claim C4: on a graph holding only individual `1`, requesting probands
`[1, 2]` leaves one proband missing, yet the code computes
`n_missing = found - requested = -1` and therefore records no warning —
the warning condition `n_missing > 0` can never hold. -/
theorem C4_missing_proband_warning_bug :
    (([s1, s2].filter (fun x => !personExists tinyGraph x)).length = 1) ∧
    n_missing tinyGraph [s1, s2] = -1 ∧
    missingWarning tinyGraph [s1, s2] = false := by decide

/-! ## Claim C5 -/

def rowC5 : Row := ⟨s1, s2, s3, sexF⟩

/-- Claim C5: ingesting the single record `(1, 2, 3, F)` through
`BuildDB.load_csv` creates the `is_father` edge `2 → 1` but no `is_parent`
edge at all, although the method's own docstring lists `[:is_parent]` among
the relations it makes. -/
theorem C5_no_is_parent_edge :
    ((⟨s2, EdgeType.is_father, s1⟩ : Edge) ∈
        (load_csv emptyGraph [rowC5] zeroStr).edges) ∧
    ∀ e ∈ (load_csv emptyGraph [rowC5] zeroStr).edges,
      e.typ ≠ EdgeType.is_parent := by decide

/-! ## Claim C6 -/

/-- Claim C6: after any complete `BuildDB.load_csv` ingestion run, no node
carries the configured sentinel identifier, and no edge endpoint equals the
sentinel: the transiently materialised sentinel node is detach-deleted at
the end of the run. -/
theorem C6_sentinel_never_persisted (g : Graph) (rows : List Row)
    (na : String) :
    (∀ n ∈ (load_csv g rows na).nodes, n.ind ≠ na) ∧
    (∀ e ∈ (load_csv g rows na).edges, e.src ≠ na ∧ e.dst ≠ na) := by
  unfold load_csv detachDelete
  constructor
  · intro n hn
    simp only [List.mem_filter, decide_eq_true_eq] at hn
    exact hn.2
  · intro e he
    simp only [List.mem_filter, decide_eq_true_eq] at he
    exact he.2

/-! ## Claim C10 -/

/-- Claim C10: for a key not present in a genealogy, both `g[key]` and
`g.get(key)` return `None` (Python `dict.get` semantics) instead of raising
an exception. -/
theorem C10_absent_key_none (g : Genealogy) (k : String)
    (habs : ∀ p ∈ g.data, p.1 ≠ k) :
    g.getitem k = none ∧ g.get k = none := by
  have h : g.data.find? (fun p => decide (p.1 = k)) = none := by
    rw [List.find?_eq_none]
    intro p hp
    simp [habs p hp]
  constructor <;> simp [Genealogy.get, Genealogy.getitem, dictGet, h]

def gC10 : Genealogy :=
  ⟨[(s1, ⟨some s1, some zeroStr, some zeroStr, some sexF⟩)], 1⟩

/-- Claim C10 witness: a concrete genealogy and absent key. -/
theorem C10_witness :
    (∀ p ∈ gC10.data, p.1 ≠ s2) ∧
    (gC10.getitem s2 = none ∧ gC10.get s2 = none) :=
  ⟨by decide, C10_absent_key_none gC10 s2 (by decide)⟩

/-! ## Genealogy dictionary lemmas (for claim C8) -/

theorem get_isSome_iff (g : Genealogy) (k : String) :
    (g.get k).isSome = true ↔ ∃ p ∈ g.data, p.1 = k := by
  simp [Genealogy.get, Genealogy.getitem, dictGet, List.find?_isSome]

theorem dictSet_keys_present (d : List (String × Record)) (k : String)
    (v : Record) (h : (d.find? (fun p => decide (p.1 = k))).isSome = true) :
    (dictSet d k v).map (fun p => p.1) = d.map (fun p => p.1) := by
  unfold dictSet
  rw [if_pos h, List.map_map]
  refine List.map_congr_left ?_
  intro p _
  by_cases hp : p.1 = k <;> simp [hp]

theorem dictSet_keys_absent (d : List (String × Record)) (k : String)
    (v : Record) (h : d.find? (fun p => decide (p.1 = k)) = none) :
    (dictSet d k v).map (fun p => p.1) = d.map (fun p => p.1) ++ [k] := by
  unfold dictSet
  rw [if_neg (by simp [h]), List.map_append]
  rfl

theorem dictGet_dictSet_self (d : List (String × Record)) (k : String)
    (v : Record) : dictGet (dictSet d k v) k = some v := by
  unfold dictGet dictSet
  by_cases h : (d.find? (fun p => decide (p.1 = k))).isSome
  · rw [if_pos h, List.find?_map]
    have hc : ((fun p : String × Record => decide (p.1 = k)) ∘
        (fun p => if p.1 = k then (k, v) else p)) =
        fun p : String × Record => decide (p.1 = k) := by
      funext p
      by_cases hp : p.1 = k <;> simp [hp]
    rw [hc]
    obtain ⟨p₀, hp₀⟩ := Option.isSome_iff_exists.mp h
    have hk : p₀.1 = k := by simpa using List.find?_some hp₀
    rw [hp₀]
    simp [hk]
  · rw [if_neg h, List.find?_append, Option.not_isSome_iff_eq_none.mp h]
    simp

theorem setitem_present (g : Genealogy) (k : String) (v : Record)
    (h : (g.get k).isSome = true) :
    g.setitem k v = (⟨dictSet g.data k v, g.size⟩, true) := by
  unfold Genealogy.setitem
  simp [h]

theorem setitem_absent (g : Genealogy) (k : String) (v : Record)
    (h : (g.get k).isSome = false) :
    g.setitem k v = (⟨dictSet g.data k v, g.size + 1⟩, false) := by
  unfold Genealogy.setitem
  simp [h]

theorem addAll_invariant (rs : List Record) (g : Genealogy)
    (hall : ∀ r ∈ rs, r.ind.isSome = true)
    (hnd : g.keys.Nodup) (hsz : g.size = g.keys.toFinset.card) :
    (addAll g rs).keys.Nodup ∧
    (addAll g rs).size = (addAll g rs).keys.toFinset.card ∧
    (addAll g rs).keys.toFinset =
      g.keys.toFinset ∪ (rs.filterMap Record.ind).toFinset := by
  induction rs generalizing g with
  | nil => simp [addAll, hnd, hsz]
  | cons r rs ih =>
    obtain ⟨k, hk⟩ := Option.isSome_iff_exists.mp (hall r (by simp))
    have hfm : (r :: rs).filterMap Record.ind = k :: rs.filterMap Record.ind := by
      simp [List.filterMap_cons, hk]
    by_cases hpres : (g.get k).isSome = true
    · have hstep : addAll g (r :: rs) =
          addAll ⟨dictSet g.data k r, g.size⟩ rs := by
        simp [addAll, Genealogy.add, hk, setitem_present g k r hpres]
      have hkeys : (Genealogy.mk (dictSet g.data k r) g.size).keys = g.keys :=
        dictSet_keys_present g.data k r (by
          have := (get_isSome_iff g k).mp hpres
          simpa [Genealogy.get, Genealogy.getitem, dictGet, List.find?_isSome]
            using this)
      have hmem : k ∈ g.keys.toFinset := by
        obtain ⟨p, hp, hpk⟩ := (get_isSome_iff g k).mp hpres
        simp only [List.mem_toFinset, Genealogy.keys]
        exact List.mem_map.mpr ⟨p, hp, hpk⟩
      obtain ⟨h1, h2, h3⟩ := ih ⟨dictSet g.data k r, g.size⟩
        (fun r hr => hall r (by simp [hr]))
        (by rw [hkeys]; exact hnd) (by rw [hkeys]; exact hsz)
      refine ⟨by rwa [hstep], by rwa [hstep], ?_⟩
      rw [hstep, h3, hkeys, hfm]
      rw [List.toFinset_cons, Finset.union_insert,
        Finset.insert_eq_self.mpr (Finset.mem_union_left _ hmem)]
    · have hfalse : (g.get k).isSome = false := by
        simpa using hpres
      have hnone : g.data.find? (fun p => decide (p.1 = k)) = none := by
        rcases hfind : g.data.find? (fun p => decide (p.1 = k)) with _ | p₀
        · exact hfind
        · exfalso
          rw [Genealogy.get, Genealogy.getitem, dictGet, hfind] at hfalse
          simp at hfalse
      have hstep : addAll g (r :: rs) =
          addAll ⟨dictSet g.data k r, g.size + 1⟩ rs := by
        simp [addAll, Genealogy.add, hk, setitem_absent g k r hfalse]
      have hkeys : (Genealogy.mk (dictSet g.data k r) (g.size + 1)).keys =
          g.keys ++ [k] := dictSet_keys_absent g.data k r hnone
      have hknot : k ∉ g.keys := by
        intro hmem
        obtain ⟨p, hp, hpk⟩ := List.mem_map.mp hmem
        have := List.find?_eq_none.mp hnone p hp
        simp [hpk] at this
      obtain ⟨h1, h2, h3⟩ := ih ⟨dictSet g.data k r, g.size + 1⟩
        (fun r hr => hall r (by simp [hr]))
        (by rw [hkeys]; simp [List.nodup_append, hnd, hknot])
        (by
          rw [hkeys, List.toFinset_append]
          simp only [List.toFinset_cons, List.toFinset_nil]
          rw [Finset.card_union_of_disjoint (by simpa using hknot)]
          simp [hsz])
      refine ⟨by rwa [hstep], by rwa [hstep], ?_⟩
      rw [hstep, h3, hkeys, hfm, List.toFinset_append, List.toFinset_cons]
      simp only [List.toFinset_nil, insert_emptyc_eq]
      rw [Finset.union_assoc, ← Finset.insert_eq, List.toFinset_cons]

/-! ## Claim C8 -/

/-- Claim C8: re-adding a record under an existing key overwrites the stored
record, leaves the size unchanged, and returns with the overwrite-warning
flag set; and after any sequence of adds starting from an empty genealogy,
the size equals the number of distinct identifiers added, not the number of
add operations. -/
theorem C8_overwrite_and_size :
    (∀ (g : Genealogy) (r : Record) (k : String), r.ind = some k →
      (g.get k).isSome = true →
      ∃ g2, g.add r = some (g2, true) ∧ g2.size = g.size ∧
        g2.getitem k = some r ∧ g2.keys = g.keys) ∧
    (∀ rs : List Record, (∀ r ∈ rs, r.ind.isSome = true) →
      (addAll emptyGenealogy rs).size =
        (rs.filterMap Record.ind).toFinset.card) := by
  constructor
  · intro g r k hk hpres
    refine ⟨⟨dictSet g.data k r, g.size⟩, ?_, rfl, ?_, ?_⟩
    · simp [Genealogy.add, hk, setitem_present g k r hpres]
    · exact dictGet_dictSet_self g.data k r
    · exact dictSet_keys_present g.data k r (by
        have := (get_isSome_iff g k).mp hpres
        simpa [Genealogy.get, Genealogy.getitem, dictGet, List.find?_isSome]
          using this)
  · intro rs hall
    obtain ⟨h1, h2, h3⟩ := addAll_invariant rs emptyGenealogy hall
      (by simp [emptyGenealogy, Genealogy.keys])
      (by simp [emptyGenealogy, Genealogy.keys])
    rw [h2, h3]
    simp [emptyGenealogy, Genealogy.keys]

/-- Claim C8 witness: concrete overwrite of key `1` and a three-add sequence
over two distinct identifiers. -/
theorem C8_witness :
    ((gC8.get s1).isSome = true ∧
      ∃ g2, gC8.add rC8 = some (g2, true) ∧ g2.size = gC8.size ∧
        g2.getitem s1 = some rC8 ∧ g2.keys = gC8.keys) ∧
    ((∀ r ∈ rsC8, r.ind.isSome = true) ∧
      (addAll emptyGenealogy rsC8).size =
        (rsC8.filterMap Record.ind).toFinset.card) :=
  ⟨⟨by decide, C8_overwrite_and_size.1 gC8 rC8 s1 rfl (by decide)⟩,
   ⟨by decide, C8_overwrite_and_size.2 rsC8 (by decide)⟩⟩

/-! ## Claim C9 -/

theorem parseAll_error_of_mem (sep : Char) (lines : List String)
    (line : String) (hx : line ∈ lines) (m : String)
    (hf : parseLine sep line = .error m) :
    ∃ e, parseAll sep lines = .error e := by
  induction lines with
  | nil => cases hx
  | cons l ls ih =>
    rcases List.mem_cons.mp hx with h | h
    · subst h
      exact ⟨m, by simp only [parseAll, hf]; rfl⟩
    · rcases hpl : parseLine sep l with e | r
      · exact ⟨e, by simp only [parseAll, hpl]; rfl⟩
      · obtain ⟨e, he⟩ := ih h
        exact ⟨e, by simp only [parseAll, hpl, he]; rfl⟩

/-- Claim C9: parsing a raw row trims surrounding whitespace on the line and
on every field, truncates fields beyond the fourth without error, fails with
the fatal per-row `MalformedRecordError` when the row splits into fewer than
four fields, and such a malformed row aborts the whole `csv_reader` call. -/
theorem C9_row_parsing :
    (∀ (sep : Char) (line : String) (a b c d : String) (rest : List String),
      pySplit (pyStrip line) sep = a :: b :: c :: d :: rest →
      parseLine sep line = .ok ⟨pyStrip a, pyStrip b, pyStrip c, pyStrip d⟩) ∧
    (∀ (sep : Char) (line : String),
      (pySplit (pyStrip line) sep).length < 4 →
      parseLine sep line = .error malformedMsg) ∧
    (∀ (header : Bool) (sep : Char) (lines : List String) (line : String),
      line ∈ (if header then lines.drop 1 else lines) →
      parseLine sep line = .error malformedMsg →
      ∃ e, csv_reader header sep lines = .error e) := by
  refine ⟨?_, ?_, ?_⟩
  · intro sep line a b c d rest h
    unfold parseLine
    rw [h]
    rfl
  · intro sep line h
    unfold parseLine
    rcases hl : pySplit (pyStrip line) sep with _ | ⟨a, _ | ⟨b, _ | ⟨c, _ | ⟨d, tl⟩⟩⟩⟩
    · rfl
    · rfl
    · rfl
    · rfl
    · rw [hl] at h
      simp only [List.length_cons] at h
      omega
  · intro header sep lines line hmem hline
    exact parseAll_error_of_mem sep _ line hmem malformedMsg hline

/-- Claim C9 witness: a five-field line with padded fields parses trimmed
and truncated; a two-field line is malformed and aborts the whole read. -/
theorem C9_witness :
    (pySplit (pyStrip lineA) ',' = s1 :: sp2 :: s3 :: sexF :: [s5] ∧
      parseLine ',' lineA =
        .ok ⟨pyStrip s1, pyStrip sp2, pyStrip s3, pyStrip sexF⟩) ∧
    ((pySplit (pyStrip lineB) ',').length < 4 ∧
      parseLine ',' lineB = .error malformedMsg) ∧
    (lineB ∈ (if true then [headerStr, lineB].drop 1 else [headerStr, lineB]) ∧
      ∃ e, csv_reader true ',' [headerStr, lineB] = .error e) :=
  ⟨⟨by decide, C9_row_parsing.1 ',' lineA s1 sp2 s3 sexF [s5] (by decide)⟩,
   ⟨by decide, C9_row_parsing.2.1 ',' lineB (by decide)⟩,
   ⟨by decide, C9_row_parsing.2.2 true ',' [headerStr, lineB] lineB (by decide)
      (C9_row_parsing.2.1 ',' lineB (by decide))⟩⟩

/-! ## Classification lemmas (for claim C7) -/

theorem graph_eq_of_fields {g₁ g₂ : Graph} (hn : g₁.nodes = g₂.nodes)
    (he : g₁.edges = g₂.edges) : g₁ = g₂ := by
  cases g₁
  cases g₂
  simp_all

theorem classify_edges (g : Graph) : (classify g).edges = g.edges := rfl

theorem classify_nodes (g : Graph) :
    (classify g).nodes = g.nodes.map (fun n => leafStep g (founderStep g n)) := by
  show (g.nodes.map (founderStep g)).map (leafStep (label_founders g)) = _
  rw [List.map_map]
  rfl

theorem founderStep_person (g : Graph) (i : String) (s : Option String) :
    founderStep g ⟨i, s, [personLabel]⟩ =
      ⟨i, s, [personLabel] ++ (if hasOutIsChild g i then [] else [founderLabel])⟩ := by
  have hc : ([personLabel] : List String).contains personLabel = true := by decide
  have hf : ([personLabel] : List String).contains founderLabel = false := by decide
  unfold founderStep addLabel
  cases hbo : hasOutIsChild g i <;> simp [hc, hf]
  decide

theorem leafStep_person (g : Graph) (i : String) (s : Option String)
    (labs : List String) (hP : labs.contains personLabel = true)
    (hL : labs.contains leafLabel = false) :
    leafStep g ⟨i, s, labs⟩ =
      ⟨i, s, labs ++ (if hasInIsChild g i then [] else [leafLabel])⟩ := by
  have hP2 : personLabel ∈ labs := by simpa using hP
  have hL2 : leafLabel ∉ labs := by simpa using hL
  unfold leafStep addLabel
  cases hbi : hasInIsChild g i <;> simp [hP, hL, hP2, hL2]

theorem classify_node_person (g : Graph) (i : String) (s : Option String) :
    leafStep g (founderStep g ⟨i, s, [personLabel]⟩) =
      ⟨i, s, ([personLabel] ++ (if hasOutIsChild g i then [] else [founderLabel])) ++
        (if hasInIsChild g i then [] else [leafLabel])⟩ := by
  rw [founderStep_person]
  cases hbo : hasOutIsChild g i
  · exact leafStep_person g i s _ (by decide) (by decide)
  · exact leafStep_person g i s _ (by decide) (by decide)

theorem classify_node_idem (g : Graph) (i : String) (s : Option String) :
    leafStep g (founderStep g
      (⟨i, s, ([personLabel] ++ (if hasOutIsChild g i then [] else [founderLabel])) ++
        (if hasInIsChild g i then [] else [leafLabel])⟩ : Node)) =
      ⟨i, s, ([personLabel] ++ (if hasOutIsChild g i then [] else [founderLabel])) ++
        (if hasInIsChild g i then [] else [leafLabel])⟩ := by
  cases hbo : hasOutIsChild g i <;> cases hbi : hasInIsChild g i <;>
    unfold founderStep leafStep addLabel <;>
    simp [hbo, hbi]

/-! ## Claim C7 -/

/-- Claim C7: starting from a graph whose nodes carry only the base `Person`
label (as `load_csv` produces), classification labels a node `Founder` iff it
has no outgoing `is_child` edge and `Leaf` iff it has no incoming `is_child`
edge; labels are additive (every node keeps its identity, sex and previous
labels), edges are untouched, and re-running classification changes
nothing. -/
theorem C7_classification (g : Graph)
    (hlab : ∀ n ∈ g.nodes, n.labels = [personLabel]) :
    (∀ n' ∈ (classify g).nodes,
      (founderLabel ∈ n'.labels ↔ hasOutIsChild (classify g) n'.ind = false) ∧
      (leafLabel ∈ n'.labels ↔ hasInIsChild (classify g) n'.ind = false)) ∧
    (∀ n ∈ g.nodes, ∃ n' ∈ (classify g).nodes,
      n'.ind = n.ind ∧ n'.sex = n.sex ∧ ∀ l ∈ n.labels, l ∈ n'.labels) ∧
    (classify g).edges = g.edges ∧
    classify (classify g) = classify g := by
  have hoc : hasOutIsChild (classify g) = hasOutIsChild g := rfl
  have hic : hasInIsChild (classify g) = hasInIsChild g := rfl
  refine ⟨?_, ?_, rfl, ?_⟩
  · intro n' hn'
    rw [classify_nodes] at hn'
    obtain ⟨n, hng, rfl⟩ := List.mem_map.mp hn'
    obtain ⟨i, s, labs⟩ := n
    have hl : labs = [personLabel] := hlab _ hng
    subst hl
    rw [classify_node_person, hoc, hic]
    have nFP : founderLabel ≠ personLabel := by decide
    have nLP : leafLabel ≠ personLabel := by decide
    have nLF : leafLabel ≠ founderLabel := by decide
    have nFL : founderLabel ≠ leafLabel := by decide
    cases hbo : hasOutIsChild g i <;> cases hbi : hasInIsChild g i <;>
      simp [nFP, nLP, nLF, nFL]
  · intro n hng
    refine ⟨leafStep g (founderStep g n), ?_, ?_⟩
    · rw [classify_nodes]
      exact List.mem_map.mpr ⟨n, hng, rfl⟩
    · obtain ⟨i, s, labs⟩ := n
      have hl : labs = [personLabel] := hlab _ hng
      subst hl
      rw [classify_node_person]
      refine ⟨rfl, rfl, ?_⟩
      intro l hlm
      simp only [List.mem_singleton] at hlm
      subst hlm
      simp
  · apply graph_eq_of_fields
    · rw [classify_nodes (classify g)]
      have h1 : leafStep (classify g) = leafStep g := rfl
      have h2 : founderStep (classify g) = founderStep g := rfl
      rw [h1, h2]
      have hid : ∀ m ∈ (classify g).nodes, leafStep g (founderStep g m) = m := by
        intro m hm
        rw [classify_nodes] at hm
        obtain ⟨n, hng, rfl⟩ := List.mem_map.mp hm
        obtain ⟨i, s, labs⟩ := n
        have hl : labs = [personLabel] := hlab _ hng
        subst hl
        rw [classify_node_person]
        exact classify_node_idem g i s
      rw [List.map_congr_left hid, List.map_id']
    · rfl

/-- The five-person pedigree after ingestion, before classification. -/
def gC7 : Graph := load_csv emptyGraph rows5 zeroStr

set_option maxRecDepth 40000 in
/-- Claim C7 witness: the five-person sample pedigree. -/
theorem C7_witness :
    (∀ n ∈ gC7.nodes, n.labels = [personLabel]) ∧
    ((∀ n' ∈ (classify gC7).nodes,
      (founderLabel ∈ n'.labels ↔ hasOutIsChild (classify gC7) n'.ind = false) ∧
      (leafLabel ∈ n'.labels ↔ hasInIsChild (classify gC7) n'.ind = false)) ∧
    (∀ n ∈ gC7.nodes, ∃ n' ∈ (classify gC7).nodes,
      n'.ind = n.ind ∧ n'.sex = n.sex ∧ ∀ l ∈ n.labels, l ∈ n'.labels) ∧
    (classify gC7).edges = gC7.edges ∧
    classify (classify gC7) = classify gC7) :=
  ⟨by decide, C7_classification gC7 (by decide)⟩

/-! ## Reachability lemmas (for claims C1 and C2) -/

theorem mem_succs (g : Graph) (x y : String) :
    y ∈ succs g x ↔ isChildRel g x y := by
  unfold succs isChildRel
  simp only [List.mem_map, List.mem_filter, decide_eq_true_eq]
  constructor
  · rintro ⟨e, ⟨he, h1, h2⟩, h3⟩
    have he' : e = ⟨x, EdgeType.is_child, y⟩ := by
      cases e
      simp_all
    rwa [he'] at he
  · intro he
    exact ⟨⟨x, EdgeType.is_child, y⟩, ⟨he, rfl, rfl⟩, rfl⟩

theorem subset_stepClosure (g : Graph) (s : List String) :
    ∀ y ∈ s, y ∈ stepClosure g s := by
  intro y hy
  exact List.mem_append_left _ hy

theorem mem_stepClosure_iff (g : Graph) (s : List String) (y : String) :
    y ∈ stepClosure g s ↔ y ∈ s ∨ ∃ x ∈ s, isChildRel g x y := by
  unfold stepClosure
  simp only [List.mem_append, List.mem_filter, List.mem_flatMap,
    decide_eq_true_eq, mem_succs]
  constructor
  · rintro (h | ⟨⟨x, hx, hr⟩, hns⟩)
    · exact Or.inl h
    · exact Or.inr ⟨x, hx, hr⟩
  · rintro (h | ⟨x, hx, hr⟩)
    · exact Or.inl h
    · by_cases hys : y ∈ s
      · exact Or.inl hys
      · exact Or.inr ⟨⟨x, hx, hr⟩, hys⟩

theorem subset_closureAux (g : Graph) (n : Nat) :
    ∀ s, ∀ y ∈ s, y ∈ closureAux g n s := by
  induction n with
  | zero => intro s y hy; exact hy
  | succ n ih =>
    intro s y hy
    exact ih (stepClosure g s) y (subset_stepClosure g s y hy)

theorem closureAux_sound (g : Graph) (n : Nat) :
    ∀ s, ∀ y ∈ closureAux g n s,
      y ∈ s ∨ ∃ x ∈ s, Relation.TransGen (isChildRel g) x y := by
  induction n with
  | zero => intro s y hy; exact Or.inl hy
  | succ n ih =>
    intro s y hy
    rcases ih (stepClosure g s) y hy with h | ⟨x, hx, ht⟩
    · rcases (mem_stepClosure_iff g s y).mp h with h2 | ⟨x, hx, hr⟩
      · exact Or.inl h2
      · exact Or.inr ⟨x, hx, Relation.TransGen.single hr⟩
    · rcases (mem_stepClosure_iff g s x).mp hx with h2 | ⟨x2, hx2, hr⟩
      · exact Or.inr ⟨x, h2, ht⟩
      · exact Or.inr ⟨x2, hx2, Relation.TransGen.head hr ht⟩

theorem stepClosure_eq_self_iff (g : Graph) (s : List String) :
    stepClosure g s = s ↔
      ((s.flatMap (succs g)).filter (fun y => decide (y ∉ s))) = [] := by
  unfold stepClosure
  constructor
  · intro h
    have hlen := congrArg List.length h
    simp only [List.length_append] at hlen
    exact List.eq_nil_of_length_eq_zero (by omega)
  · intro h
    rw [h, List.append_nil]

theorem closed_of_saturated (g : Graph) (s : List String)
    (h : stepClosure g s = s) :
    ∀ x ∈ s, ∀ y, isChildRel g x y → y ∈ s := by
  intro x hx y hr
  by_contra hy
  have hmem : y ∈ (s.flatMap (succs g)).filter (fun y => decide (y ∉ s)) := by
    rw [List.mem_filter]
    refine ⟨List.mem_flatMap.mpr ⟨x, hx, (mem_succs g x y).mpr hr⟩, by simpa⟩
  rw [(stepClosure_eq_self_iff g s).mp h] at hmem
  cases hmem

theorem closureAux_saturated (g : Graph) (n : Nat) (s : List String)
    (h : stepClosure g s = s) : closureAux g n s = s := by
  induction n with
  | zero => rfl
  | succ n ih =>
    show closureAux g n (stepClosure g s) = s
    rw [h]
    exact ih

theorem stepClosure_measure (g : Graph) (s : List String)
    (hne : ¬stepClosure g s = s) :
    ((g.edges.map (fun e => e.dst)).toFinset.filter
        (fun y => y ∉ stepClosure g s)).card <
      ((g.edges.map (fun e => e.dst)).toFinset.filter (fun y => y ∉ s)).card := by
  have hex : ∃ y, y ∈ (s.flatMap (succs g)).filter (fun y => decide (y ∉ s)) := by
    by_contra hno
    push_neg at hno
    exact hne ((stepClosure_eq_self_iff g s).mpr
      (List.eq_nil_iff_forall_not_mem.mpr hno))
  obtain ⟨y0, hy0⟩ := hex
  have hy0f := List.mem_filter.mp hy0
  have hy0s : y0 ∉ s := by simpa using hy0f.2
  have hy0D : y0 ∈ (g.edges.map (fun e => e.dst)).toFinset := by
    obtain ⟨x, hx, hsucc⟩ := List.mem_flatMap.mp hy0f.1
    rw [List.mem_toFinset, List.mem_map]
    exact ⟨⟨x, EdgeType.is_child, y0⟩, (mem_succs g x y0).mp hsucc, rfl⟩
  have hy0step : y0 ∈ stepClosure g s := List.mem_append_right _ hy0
  apply Finset.card_lt_card
  rw [Finset.ssubset_iff_of_subset]
  · exact ⟨y0, Finset.mem_filter.mpr ⟨hy0D, hy0s⟩,
      fun hc => (Finset.mem_filter.mp hc).2 hy0step⟩
  · intro z hz
    rw [Finset.mem_filter] at hz ⊢
    exact ⟨hz.1, fun hzs => hz.2 (subset_stepClosure g s z hzs)⟩

theorem closureAux_closed (g : Graph) (n : Nat) :
    ∀ s, ((g.edges.map (fun e => e.dst)).toFinset.filter
        (fun y => y ∉ s)).card ≤ n →
      ∀ x ∈ closureAux g n s, ∀ y, isChildRel g x y → y ∈ closureAux g n s := by
  induction n with
  | zero =>
    intro s hcard x hx y hr
    have hsat : stepClosure g s = s := by
      by_contra hne
      have := stepClosure_measure g s hne
      omega
    exact closed_of_saturated g s hsat x hx y hr
  | succ n ih =>
    intro s hcard
    by_cases hsat : stepClosure g s = s
    · rw [closureAux_saturated g (n + 1) s hsat]
      exact closed_of_saturated g s hsat
    · have hlt := stepClosure_measure g s hsat
      show ∀ x ∈ closureAux g n (stepClosure g s), _
      exact ih (stepClosure g s) (by omega)

theorem closure_closed (g : Graph) (s : List String) :
    ∀ x ∈ closure g s, ∀ y, isChildRel g x y → y ∈ closure g s := by
  apply closureAux_closed
  calc ((g.edges.map (fun e => e.dst)).toFinset.filter (fun y => y ∉ s)).card
      ≤ (g.edges.map (fun e => e.dst)).toFinset.card := Finset.card_filter_le _ _
    _ ≤ (g.edges.map (fun e => e.dst)).length := List.toFinset_card_le _
    _ = g.edges.length := List.length_map _ _

theorem closed_transGen (g : Graph) (t : List String)
    (hclosed : ∀ x ∈ t, ∀ y, isChildRel g x y → y ∈ t) (x y : String)
    (hx : x ∈ t) (ht : Relation.TransGen (isChildRel g) x y) : y ∈ t := by
  induction ht with
  | single h => exact hclosed x hx _ h
  | tail _ h ih => exact hclosed _ ih _ h

theorem mem_closure_iff (g : Graph) (s : List String) (y : String) :
    y ∈ closure g s ↔ y ∈ s ∨ ∃ x ∈ s, Relation.TransGen (isChildRel g) x y := by
  constructor
  · exact closureAux_sound g g.edges.length s y
  · rintro (h | ⟨x, hx, ht⟩)
    · exact subset_closureAux g g.edges.length s y h
    · exact closed_transGen g (closure g s) (closure_closed g s) x y
        (subset_closureAux g g.edges.length s x hx) ht

theorem mem_get_ancestors (g : Graph) (ps : List String) (y : String) :
    y ∈ get_ancestors g ps ↔
      personExists g y = true ∧
      ∃ x ∈ ps, personExists g x = true ∧
        Relation.TransGen (isChildRel g) x y := by
  show y ∈ ((closure g (((ps.filter (personExists g)).flatMap
      (succs g)).dedup)).filter (personExists g)).dedup ↔ _
  rw [List.mem_dedup, List.mem_filter]
  constructor
  · rintro ⟨hcl, hpe⟩
    refine ⟨hpe, ?_⟩
    rcases (mem_closure_iff g _ y).mp hcl with h | ⟨z, hz, ht⟩
    · rw [List.mem_dedup] at h
      obtain ⟨x, hx, hs⟩ := List.mem_flatMap.mp h
      have hx2 := List.mem_filter.mp hx
      exact ⟨x, hx2.1, hx2.2, Relation.TransGen.single ((mem_succs g x y).mp hs)⟩
    · rw [List.mem_dedup] at hz
      obtain ⟨x, hx, hs⟩ := List.mem_flatMap.mp hz
      have hx2 := List.mem_filter.mp hx
      exact ⟨x, hx2.1, hx2.2,
        Relation.TransGen.head ((mem_succs g x z).mp hs) ht⟩
  · rintro ⟨hpe, x, hx, hxpe, ht⟩
    refine ⟨?_, hpe⟩
    obtain ⟨z, hxz, hzy⟩ := Relation.TransGen.head'_iff.mp ht
    have hz1 : z ∈ ((ps.filter (personExists g)).flatMap (succs g)).dedup :=
      List.mem_dedup.mpr (List.mem_flatMap.mpr
        ⟨x, List.mem_filter.mpr ⟨hx, hxpe⟩, (mem_succs g x z).mpr hxz⟩)
    rcases (Relation.reflTransGen_iff_eq_or_transGen.mp hzy) with heq | htzy
    · exact (mem_closure_iff g _ y).mpr (Or.inl (heq ▸ hz1))
    · exact (mem_closure_iff g _ y).mpr (Or.inr ⟨z, hz1, htzy⟩)

/-! ## Genealogy key-set lemmas -/

theorem find?_none_of_get_false (g : Genealogy) (k : String)
    (h : (g.get k).isSome = false) :
    g.data.find? (fun p => decide (p.1 = k)) = none := by
  rcases hfind : g.data.find? (fun p => decide (p.1 = k)) with _ | p
  · exact hfind
  · exfalso
    simp only [Genealogy.get, Genealogy.getitem, dictGet, hfind] at h
    simp at h

theorem mem_keys_setitem (g : Genealogy) (k2 k : String) (v : Record) :
    k ∈ (g.setitem k2 v).1.keys ↔ k ∈ g.keys ∨ k = k2 := by
  by_cases h : (g.get k2).isSome = true
  · rw [setitem_present g k2 v h]
    have hkeys : (Genealogy.mk (dictSet g.data k2 v) g.size).keys = g.keys :=
      dictSet_keys_present g.data k2 v (by
        have h2 := (get_isSome_iff g k2).mp h
        simpa [Genealogy.get, Genealogy.getitem, dictGet, List.find?_isSome]
          using h2)
    rw [hkeys]
    constructor
    · exact Or.inl
    · rintro (hk | rfl)
      · exact hk
      · obtain ⟨p, hp, hpk⟩ := (get_isSome_iff g _).mp h
        exact List.mem_map.mpr ⟨p, hp, hpk⟩
  · have hf : (g.get k2).isSome = false := by simpa using h
    rw [setitem_absent g k2 v hf]
    have hkeys : (Genealogy.mk (dictSet g.data k2 v) (g.size + 1)).keys =
        g.keys ++ [k2] :=
      dictSet_keys_absent g.data k2 v (find?_none_of_get_false g k2 hf)
    rw [hkeys]
    simp [List.mem_append]

theorem mem_keys_foldFetched (rs : List FetchedRow) :
    ∀ (gen : Genealogy) (k : String),
      k ∈ (rs.foldl (fun gen r =>
          match gen.add (recordOfFetched r) with
          | some (gen2, _) => gen2
          | none => gen) gen).keys ↔
        k ∈ gen.keys ∨ ∃ r ∈ rs, r.ind = k := by
  induction rs with
  | nil => intro gen k; simp
  | cons r rs ih =>
    intro gen k
    rw [List.foldl_cons]
    have hstep : (match gen.add (recordOfFetched r) with
        | some (gen2, _) => gen2
        | none => gen) = (gen.setitem r.ind (recordOfFetched r)).1 := rfl
    rw [hstep, ih, mem_keys_setitem]
    constructor
    · rintro ((hk | rfl) | ⟨r2, hr2, hrk⟩)
      · exact Or.inl hk
      · exact Or.inr ⟨r, List.mem_cons_self r rs, rfl⟩
      · exact Or.inr ⟨r2, List.mem_cons_of_mem r hr2, hrk⟩
    · rintro (hk | ⟨r2, hr2, hrk⟩)
      · exact Or.inl (Or.inl hk)
      · rcases List.mem_cons.mp hr2 with heq | h2
        · exact Or.inl (Or.inr (heq ▸ hrk).symm)
        · exact Or.inr ⟨r2, h2, hrk⟩

theorem mem_keys_buildGenealogy (rs : List FetchedRow) (k : String) :
    k ∈ (buildGenealogy rs).keys ↔ ∃ r ∈ rs, r.ind = k := by
  have h := mem_keys_foldFetched rs emptyGenealogy k
  simpa [buildGenealogy, emptyGenealogy, Genealogy.keys] using h

/-! ## Record-fetch lemmas -/

theorem optList_ne_nil (l : List String) :
    (if l.isEmpty then [(none : Option String)] else l.map some) ≠ [] := by
  cases l <;> simp

theorem get_records_ind_mem (g : Graph) (inds : List String) (r : FetchedRow)
    (h : r ∈ get_records g inds) :
    r.ind ∈ inds ∧ personExists g r.ind = true := by
  obtain ⟨x, hx, hr⟩ := List.mem_flatMap.mp h
  rcases hf : g.nodes.find? (fun n => matchesPerson n x) with _ | child
  · rw [hf] at hr
    cases hr
  · rw [hf] at hr
    obtain ⟨f, hfm, hr2⟩ := List.mem_flatMap.mp hr
    obtain ⟨m, hmm, rfl⟩ := List.mem_map.mp hr2
    refine ⟨hx, ?_⟩
    show personExists g x = true
    unfold personExists
    rw [List.any_eq_true]
    refine ⟨child, List.mem_of_find?_eq_some hf, ?_⟩
    have hp := List.find?_some hf
    exact hp

theorem get_records_exists (g : Graph) (inds : List String) (x : String)
    (hx : x ∈ inds) (hpe : personExists g x = true) :
    ∃ r ∈ get_records g inds, r.ind = x := by
  have hfind : ∃ child, g.nodes.find? (fun n => matchesPerson n x) = some child := by
    rcases hf : g.nodes.find? (fun n => matchesPerson n x) with _ | child
    · exfalso
      unfold personExists at hpe
      rw [List.any_eq_true] at hpe
      obtain ⟨n, hn, hm⟩ := hpe
      exact List.find?_eq_none.mp hf n hn hm
    · exact ⟨child, rfl⟩
  obtain ⟨child, hf⟩ := hfind
  obtain ⟨f0, ftl, hfl⟩ :=
    List.exists_cons_of_ne_nil (optList_ne_nil (inEdges g .is_father x))
  obtain ⟨m0, mtl, hml⟩ :=
    List.exists_cons_of_ne_nil (optList_ne_nil (inEdges g .is_mother x))
  refine ⟨⟨x, f0, m0, child.sex⟩, ?_, rfl⟩
  apply List.mem_flatMap.mpr
  refine ⟨x, hx, ?_⟩
  rw [hf]
  show FetchedRow.mk x f0 m0 child.sex ∈
    (if (inEdges g .is_father x).isEmpty then [(none : Option String)]
      else (inEdges g .is_father x).map some).flatMap (fun f =>
        (if (inEdges g .is_mother x).isEmpty then [(none : Option String)]
          else (inEdges g .is_mother x).map some).map
          (fun m => ⟨x, f, m, child.sex⟩))
  apply List.mem_flatMap.mpr
  refine ⟨f0, by rw [hfl]; exact List.mem_cons_self _ _, ?_⟩
  exact List.mem_map.mpr ⟨m0, by rw [hml]; exact List.mem_cons_self _ _, rfl⟩

theorem mem_reconstruct_keys (g : Graph) (ps : List String) (k : String) :
    k ∈ (reconstruct_genealogy g ps).keys ↔
      (k ∈ get_ancestors g ps ∨ k ∈ ps) ∧ personExists g k = true := by
  show k ∈ (buildGenealogy
      (get_records g ((get_ancestors g ps ++ ps).dedup))).keys ↔ _
  rw [mem_keys_buildGenealogy]
  constructor
  · rintro ⟨r, hr, rfl⟩
    obtain ⟨hin, hpe⟩ := get_records_ind_mem g _ r hr
    rw [List.mem_dedup, List.mem_append] at hin
    exact ⟨hin, hpe⟩
  · rintro ⟨hmem, hpe⟩
    obtain ⟨r, hr, hrk⟩ := get_records_exists g _ k
      (by rw [List.mem_dedup, List.mem_append]; exact hmem) hpe
    exact ⟨r, hr, hrk⟩

theorem personExists_of_transGen (g : Graph) (hwf : GraphWF g) (x y : String)
    (h : Relation.TransGen (isChildRel g) x y) : personExists g y = true := by
  have hedge : ∃ z, isChildRel g z y := by
    induction h with
    | single h1 => exact ⟨_, h1⟩
    | tail _ h1 _ => exact ⟨_, h1⟩
  obtain ⟨z, hz⟩ := hedge
  obtain ⟨-, n, hn1, hn2⟩ := hwf.2 _ hz
  unfold personExists
  rw [List.any_eq_true]
  refine ⟨n, hn1, ?_⟩
  have hc : personLabel ∈ n.labels := by simpa using hwf.1 n hn1
  unfold matchesPerson
  rw [hn2]
  simp [hc]

/-! ## Claim C1 -/

/-- Claim C1: for every well-formed graph and proband list, the member set of
the reconstructed genealogy is exactly the union of the probands present in
the graph and all their ancestors (nodes reachable via one or more
`is_child` edges), and that member set is closed under taking ancestors. -/
theorem C1_reconstruction_member_set (g : Graph) (ps : List String)
    (hwf : GraphWF g) :
    (∀ y, y ∈ (reconstruct_genealogy g ps).keys ↔
      (y ∈ ps ∧ personExists g y = true) ∨
      ∃ x ∈ ps, personExists g x = true ∧
        Relation.TransGen (isChildRel g) x y) ∧
    (∀ m y, m ∈ (reconstruct_genealogy g ps).keys →
      Relation.TransGen (isChildRel g) m y →
      y ∈ (reconstruct_genealogy g ps).keys) := by
  have hmem : ∀ y, y ∈ (reconstruct_genealogy g ps).keys ↔
      (y ∈ ps ∧ personExists g y = true) ∨
      ∃ x ∈ ps, personExists g x = true ∧
        Relation.TransGen (isChildRel g) x y := by
    intro y
    rw [mem_reconstruct_keys]
    constructor
    · rintro ⟨hor, hpe⟩
      rcases hor with hanc | hps
      · exact Or.inr ((mem_get_ancestors g ps y).mp hanc).2
      · exact Or.inl ⟨hps, hpe⟩
    · rintro (⟨hps, hpe⟩ | ⟨x, hx, hxpe, ht⟩)
      · exact ⟨Or.inr hps, hpe⟩
      · have hpy := personExists_of_transGen g hwf x y ht
        exact ⟨Or.inl ((mem_get_ancestors g ps y).mpr ⟨hpy, x, hx, hxpe, ht⟩),
          hpy⟩
  refine ⟨hmem, ?_⟩
  intro m y hm ht
  rcases (hmem m).mp hm with ⟨hps, hpe⟩ | ⟨x, hx, hxpe, htx⟩
  · exact (hmem y).mpr (Or.inr ⟨m, hps, hpe, ht⟩)
  · exact (hmem y).mpr (Or.inr ⟨x, hx, hxpe, Relation.TransGen.trans htx ht⟩)

set_option maxRecDepth 40000 in
/-- Claim C1 witness: the five-person sample pedigree with proband `5`. -/
theorem C1_witness :
    GraphWF sampleGraph ∧
    ((∀ y, y ∈ (reconstruct_genealogy sampleGraph [s5]).keys ↔
      (y ∈ [s5] ∧ personExists sampleGraph y = true) ∨
      ∃ x ∈ [s5], personExists sampleGraph x = true ∧
        Relation.TransGen (isChildRel sampleGraph) x y) ∧
    (∀ m y, m ∈ (reconstruct_genealogy sampleGraph [s5]).keys →
      Relation.TransGen (isChildRel sampleGraph) m y →
      y ∈ (reconstruct_genealogy sampleGraph [s5]).keys)) :=
  ⟨by decide, C1_reconstruction_member_set sampleGraph [s5] (by decide)⟩

/-! ## Ingestion-state lemmas (for claim C2) -/

theorem mergePersonNode_edges (g : Graph) (x : String) :
    (mergePersonNode g x).edges = g.edges := by
  unfold mergePersonNode
  split <;> rfl

theorem mergeEdge_nodes (g : Graph) (a : String) (t : EdgeType) (b : String) :
    (mergeEdge g a t b).nodes = g.nodes := by
  unfold mergeEdge
  split <;> rfl

theorem mergeEdge_mem (g : Graph) (a : String) (t : EdgeType) (b : String)
    (e : Edge) :
    e ∈ (mergeEdge g a t b).edges ↔ e ∈ g.edges ∨ e = ⟨a, t, b⟩ := by
  unfold mergeEdge
  by_cases h : (⟨a, t, b⟩ : Edge) ∈ g.edges
  · rw [if_pos h]
    constructor
    · exact Or.inl
    · rintro (h2 | rfl)
      · exact h2
      · exact h
  · rw [if_neg h]
    show e ∈ g.edges ++ [(⟨a, t, b⟩ : Edge)] ↔ _
    simp [List.mem_append]

theorem mergeEdge_nodup (g : Graph) (a : String) (t : EdgeType) (b : String)
    (h : g.edges.Nodup) : (mergeEdge g a t b).edges.Nodup := by
  unfold mergeEdge
  by_cases hm : (⟨a, t, b⟩ : Edge) ∈ g.edges
  · rw [if_pos hm]
    exact h
  · rw [if_neg hm]
    show (g.edges ++ [(⟨a, t, b⟩ : Edge)]).Nodup
    simp [List.nodup_append, h, hm]

theorem personExists_iff_ind (g : Graph)
    (hlab : ∀ n ∈ g.nodes, n.labels = [personLabel]) (x : String) :
    personExists g x = true ↔ ∃ n ∈ g.nodes, n.ind = x := by
  unfold personExists
  rw [List.any_eq_true]
  constructor
  · rintro ⟨n, hn, hm⟩
    unfold matchesPerson at hm
    simp only [Bool.and_eq_true, decide_eq_true_eq] at hm
    exact ⟨n, hn, hm.1⟩
  · rintro ⟨n, hn, hx⟩
    refine ⟨n, hn, ?_⟩
    unfold matchesPerson
    rw [hlab n hn, hx]
    simp

theorem mergePersonNode_mem (g : Graph) (x : String) (n : Node) :
    n ∈ (mergePersonNode g x).nodes ↔
      n ∈ g.nodes ∨
        (personExists g x = false ∧ n = ⟨x, none, [personLabel]⟩) := by
  unfold mergePersonNode
  by_cases h : personExists g x
  · rw [if_pos h]
    simp [h]
  · rw [if_neg h]
    show n ∈ g.nodes ++ [(⟨x, none, [personLabel]⟩ : Node)] ↔ _
    rw [List.mem_append, List.mem_singleton]
    have hf : personExists g x = false := by simpa using h
    simp [hf]

theorem mergePersonNode_labels (g : Graph) (x : String)
    (hlab : ∀ n ∈ g.nodes, n.labels = [personLabel]) :
    ∀ n ∈ (mergePersonNode g x).nodes, n.labels = [personLabel] := by
  intro n hn
  rcases (mergePersonNode_mem g x n).mp hn with h | ⟨-, rfl⟩
  · exact hlab n h
  · rfl

theorem mergePersonNode_indSet (g : Graph)
    (hlab : ∀ n ∈ g.nodes, n.labels = [personLabel]) (x y : String) :
    (∃ n ∈ (mergePersonNode g x).nodes, n.ind = y) ↔
      (∃ n ∈ g.nodes, n.ind = y) ∨ x = y := by
  constructor
  · rintro ⟨n, hn, rfl⟩
    rcases (mergePersonNode_mem g x n).mp hn with h | ⟨-, rfl⟩
    · exact Or.inl ⟨n, h, rfl⟩
    · exact Or.inr rfl
  · rintro (⟨n, hn, rfl⟩ | rfl)
    · exact ⟨n, (mergePersonNode_mem g x n).mpr (Or.inl hn), rfl⟩
    · by_cases h : personExists g x = true
      · obtain ⟨n, hn, hx⟩ := (personExists_iff_ind g hlab x).mp h
        exact ⟨n, (mergePersonNode_mem g x n).mpr (Or.inl hn), hx⟩
      · exact ⟨⟨x, none, [personLabel]⟩,
          (mergePersonNode_mem g x _).mpr (Or.inr ⟨by simpa using h, rfl⟩), rfl⟩

theorem mergePersonNode_indNodup (g : Graph)
    (hlab : ∀ n ∈ g.nodes, n.labels = [personLabel]) (x : String)
    (hnd : (g.nodes.map Node.ind).Nodup) :
    ((mergePersonNode g x).nodes.map Node.ind).Nodup := by
  unfold mergePersonNode
  by_cases h : personExists g x
  · rw [if_pos h]
    exact hnd
  · rw [if_neg h]
    show ((g.nodes ++ [(⟨x, none, [personLabel]⟩ : Node)]).map Node.ind).Nodup
    rw [List.map_append]
    have hx : x ∉ g.nodes.map Node.ind := by
      intro hmem
      obtain ⟨n, hn, hni⟩ := List.mem_map.mp hmem
      exact h ((personExists_iff_ind g hlab x).mpr ⟨n, hn, hni⟩)
    simp [List.nodup_append, hnd, hx]

theorem setSex_mem (g : Graph) (x s : String) (n : Node) :
    n ∈ (setSex g x s).nodes ↔ ∃ m ∈ g.nodes,
      n = if matchesPerson m x then { m with sex := some s } else m := by
  unfold setSex
  rw [List.mem_map]
  constructor
  · rintro ⟨m, hm, rfl⟩
    exact ⟨m, hm, rfl⟩
  · rintro ⟨m, hm, rfl⟩
    exact ⟨m, hm, rfl⟩

theorem setSex_ind_map (g : Graph) (x s : String) :
    (setSex g x s).nodes.map Node.ind = g.nodes.map Node.ind := by
  unfold setSex
  rw [List.map_map]
  apply List.map_congr_left
  intro m _
  by_cases h : matchesPerson m x <;> simp [h]

theorem setSex_labels (g : Graph) (x s : String)
    (hlab : ∀ n ∈ g.nodes, n.labels = [personLabel]) :
    ∀ n ∈ (setSex g x s).nodes, n.labels = [personLabel] := by
  intro n hn
  obtain ⟨m, hm, rfl⟩ := (setSex_mem g x s n).mp hn
  by_cases h : matchesPerson m x <;> simp [h, hlab m hm]

theorem setSex_indSet (g : Graph) (x s y : String) :
    (∃ n ∈ (setSex g x s).nodes, n.ind = y) ↔ ∃ n ∈ g.nodes, n.ind = y := by
  constructor
  · rintro ⟨n, hn, rfl⟩
    obtain ⟨m, hm, rfl⟩ := (setSex_mem g x s n).mp hn
    refine ⟨m, hm, ?_⟩
    by_cases h : matchesPerson m x <;> simp [h]
  · rintro ⟨m, hm, rfl⟩
    refine ⟨if matchesPerson m x then { m with sex := some s } else m,
      (setSex_mem g x s _).mpr ⟨m, hm, rfl⟩, ?_⟩
    by_cases h : matchesPerson m x <;> simp [h]

theorem setSex_sex_at (g : Graph) (x s : String)
    (hlab : ∀ n ∈ g.nodes, n.labels = [personLabel]) :
    ∀ n ∈ (setSex g x s).nodes,
      (n.ind = x → n.sex = some s) ∧ (¬n.ind = x → n ∈ g.nodes) := by
  intro n hn
  obtain ⟨m, hm, rfl⟩ := (setSex_mem g x s n).mp hn
  have hmx : matchesPerson m x = true ↔ m.ind = x := by
    unfold matchesPerson
    rw [hlab m hm]
    simp
  by_cases h : matchesPerson m x
  · rw [if_pos h]
    exact ⟨fun _ => rfl, fun hne => absurd (hmx.mp h) hne⟩
  · rw [if_neg h]
    refine ⟨fun hix => ?_, fun _ => hm⟩
    exact absurd (hmx.mpr hix) h

theorem setSex_edges (g : Graph) (x s : String) :
    (setSex g x s).edges = g.edges := rfl

theorem loadNodes_edges (g : Graph) (r : Row) :
    (loadNodes g r).edges = g.edges := by
  unfold loadNodes
  rw [mergePersonNode_edges, mergePersonNode_edges, setSex_edges,
    mergePersonNode_edges]

theorem loadEdges_nodes (g : Graph) (r : Row) :
    (loadEdges g r).nodes = g.nodes := by
  unfold loadEdges
  rw [mergeEdge_nodes, mergeEdge_nodes, mergeEdge_nodes, mergeEdge_nodes]

theorem loadRow_nodes (g : Graph) (r : Row) :
    (loadRow g r).nodes = (loadNodes g r).nodes := by
  unfold loadRow
  rw [loadEdges_nodes]

theorem loadRow_edges_mem (g : Graph) (r : Row) (e : Edge) :
    e ∈ (loadRow g r).edges ↔ e ∈ g.edges ∨ edgePattern r e := by
  unfold loadRow loadEdges
  rw [mergeEdge_mem, mergeEdge_mem, mergeEdge_mem, mergeEdge_mem,
    loadNodes_edges]
  unfold edgePattern
  tauto

theorem loadRow_edges_nodup (g : Graph) (r : Row) (h : g.edges.Nodup) :
    (loadRow g r).edges.Nodup := by
  unfold loadRow loadEdges
  apply mergeEdge_nodup
  apply mergeEdge_nodup
  apply mergeEdge_nodup
  apply mergeEdge_nodup
  rw [loadNodes_edges]
  exact h

theorem loadNodes_labels (g : Graph) (r : Row)
    (hlab : ∀ n ∈ g.nodes, n.labels = [personLabel]) :
    ∀ n ∈ (loadNodes g r).nodes, n.labels = [personLabel] := by
  unfold loadNodes
  exact mergePersonNode_labels _ _ (mergePersonNode_labels _ _
    (setSex_labels _ _ _ (mergePersonNode_labels _ _ hlab)))

theorem loadNodes_indNodup (g : Graph) (r : Row)
    (hlab : ∀ n ∈ g.nodes, n.labels = [personLabel])
    (hnd : (g.nodes.map Node.ind).Nodup) :
    ((loadNodes g r).nodes.map Node.ind).Nodup := by
  have hlabA := mergePersonNode_labels g r.ind hlab
  have hlabB := setSex_labels (mergePersonNode g r.ind) r.ind r.sex hlabA
  have hlabC := mergePersonNode_labels _ r.father hlabB
  have hndA := mergePersonNode_indNodup g hlab r.ind hnd
  have hndB : ((setSex (mergePersonNode g r.ind) r.ind r.sex).nodes.map
      Node.ind).Nodup := by
    rw [setSex_ind_map]
    exact hndA
  have hndC := mergePersonNode_indNodup _ hlabB r.father hndB
  exact mergePersonNode_indNodup _ hlabC r.mother hndC

theorem loadNodes_indSet (g : Graph) (r : Row)
    (hlab : ∀ n ∈ g.nodes, n.labels = [personLabel]) (y : String) :
    (∃ n ∈ (loadNodes g r).nodes, n.ind = y) ↔
      (∃ n ∈ g.nodes, n.ind = y) ∨ r.ind = y ∨ r.father = y ∨ r.mother = y := by
  have hlabA := mergePersonNode_labels g r.ind hlab
  have hlabB := setSex_labels (mergePersonNode g r.ind) r.ind r.sex hlabA
  have hlabC := mergePersonNode_labels _ r.father hlabB
  unfold loadNodes
  rw [mergePersonNode_indSet _ hlabC, mergePersonNode_indSet _ hlabB,
    setSex_indSet, mergePersonNode_indSet _ hlab, or_assoc, or_assoc]

theorem loadNodes_sex (g : Graph) (r : Row)
    (hlab : ∀ n ∈ g.nodes, n.labels = [personLabel]) :
    ∀ n ∈ (loadNodes g r).nodes,
      (n.ind = r.ind → n.sex = some r.sex) ∧
      (¬n.ind = r.ind → (n ∈ g.nodes ∨ ¬∃ m ∈ g.nodes, m.ind = n.ind)) := by
  have hlabA := mergePersonNode_labels g r.ind hlab
  have hlabB := setSex_labels (mergePersonNode g r.ind) r.ind r.sex hlabA
  have hlabC := mergePersonNode_labels _ r.father hlabB
  have hBind : ∃ m ∈ (setSex (mergePersonNode g r.ind) r.ind r.sex).nodes,
      m.ind = r.ind :=
    (setSex_indSet _ _ _ _).mpr
      ((mergePersonNode_indSet g hlab r.ind r.ind).mpr (Or.inr rfl))
  intro n hn
  rcases (mergePersonNode_mem _ r.mother n).mp hn with hC | ⟨hpe, rfl⟩
  · rcases (mergePersonNode_mem _ r.father n).mp hC with hB | ⟨hpe, rfl⟩
    · have hss := setSex_sex_at (mergePersonNode g r.ind) r.ind r.sex hlabA n hB
      refine ⟨hss.1, fun hne => ?_⟩
      rcases (mergePersonNode_mem g r.ind n).mp (hss.2 hne) with hg | ⟨-, rfl⟩
      · exact Or.inl hg
      · exact absurd rfl hne
    · refine ⟨fun hind => ?_, fun hne => ?_⟩
      · obtain ⟨m, hm, hmi⟩ := hBind
        have hpet : personExists
            (setSex (mergePersonNode g r.ind) r.ind r.sex) r.father = true :=
          (personExists_iff_ind _ hlabB r.father).mpr
            ⟨m, hm, hmi.trans hind.symm⟩
        simp [hpet] at hpe
      · right
        rintro ⟨m, hm, hmi⟩
        have hBm : ∃ m2 ∈ (setSex (mergePersonNode g r.ind) r.ind
            r.sex).nodes, m2.ind = r.father :=
          (setSex_indSet _ _ _ _).mpr
            ((mergePersonNode_indSet g hlab r.ind r.father).mpr
              (Or.inl ⟨m, hm, hmi⟩))
        have hpet := (personExists_iff_ind _ hlabB r.father).mpr hBm
        simp [hpet] at hpe
  · refine ⟨fun hind => ?_, fun hne => ?_⟩
    · obtain ⟨m, hm, hmi⟩ := hBind
      have hCm : ∃ m2 ∈ (mergePersonNode (setSex (mergePersonNode g r.ind)
          r.ind r.sex) r.father).nodes, m2.ind = r.mother :=
        (mergePersonNode_indSet _ hlabB r.father r.mother).mpr
          (Or.inl ⟨m, hm, hmi.trans hind.symm⟩)
      have hpet := (personExists_iff_ind _ hlabC r.mother).mpr hCm
      simp [hpet] at hpe
    · right
      rintro ⟨m, hm, hmi⟩
      have hCm : ∃ m2 ∈ (mergePersonNode (setSex (mergePersonNode g r.ind)
          r.ind r.sex) r.father).nodes, m2.ind = r.mother :=
        (mergePersonNode_indSet _ hlabB r.father r.mother).mpr
          (Or.inl ((setSex_indSet _ _ _ _).mpr
            ((mergePersonNode_indSet g hlab r.ind r.mother).mpr
              (Or.inl ⟨m, hm, hmi⟩))))
      have hpet := (personExists_iff_ind _ hlabC r.mother).mpr hCm
      simp [hpet] at hpe

theorem exists_mem_append_singleton {α : Type} (P : List α) (r : α)
    (φ : α → Prop) :
    (∃ a ∈ P ++ [r], φ a) ↔ (∃ a ∈ P, φ a) ∨ φ r := by
  constructor
  · rintro ⟨a, ha, hφ⟩
    rcases List.mem_append.mp ha with h | h
    · exact Or.inl ⟨a, h, hφ⟩
    · rw [List.mem_singleton] at h
      exact Or.inr (h ▸ hφ)
  · rintro (⟨a, ha, hφ⟩ | hφ)
    · exact ⟨a, List.mem_append_left _ ha, hφ⟩
    · exact ⟨r, List.mem_append_right _ (List.mem_singleton.mpr rfl), hφ⟩

theorem loadRow_inv (g : Graph) (P : List Row) (r : Row)
    (hinv : LoadInv g P) (hfresh : ∀ r2 ∈ P, ¬r2.ind = r.ind) :
    LoadInv (loadRow g r) (P ++ [r]) := by
  obtain ⟨hlab, hnd, hset, hsex, hemem, hend⟩ := hinv
  refine ⟨?_, ?_, ?_, ?_, ?_, ?_⟩
  · rw [loadRow_nodes]
    exact loadNodes_labels g r hlab
  · rw [loadRow_nodes]
    exact loadNodes_indNodup g r hlab hnd
  · intro y
    rw [loadRow_nodes, loadNodes_indSet g r hlab y, hset y,
      exists_mem_append_singleton, exists_mem_append_singleton]
    constructor
    · rintro ((h | h) | rfl | rfl | rfl)
      · exact Or.inl (Or.inl h)
      · exact Or.inr (Or.inl h)
      · exact Or.inl (Or.inr rfl)
      · exact Or.inr (Or.inr (Or.inl rfl))
      · exact Or.inr (Or.inr (Or.inr rfl))
    · rintro ((h | rfl) | (h | (rfl | rfl)))
      · exact Or.inl (Or.inl h)
      · exact Or.inr (Or.inl rfl)
      · exact Or.inl (Or.inr h)
      · exact Or.inr (Or.inr (Or.inl rfl))
      · exact Or.inr (Or.inr (Or.inr rfl))
  · intro n hn r2 hr2 hr2i
    rw [loadRow_nodes] at hn
    have hsp := loadNodes_sex g r hlab n hn
    rcases List.mem_append.mp hr2 with hP | hr2r
    · by_cases hni : n.ind = r.ind
      · exact absurd (hr2i.trans hni) (hfresh r2 hP)
      · rcases hsp.2 hni with hg | hnone
        · exact hsex n hg r2 hP hr2i
        · exact absurd ((hset n.ind).mpr (Or.inl ⟨r2, hP, hr2i⟩)) hnone
    · rw [List.mem_singleton] at hr2r
      subst hr2r
      exact hsp.1 hr2i.symm
  · intro e
    rw [loadRow_edges_mem, hemem e, exists_mem_append_singleton]
  · exact loadRow_edges_nodup g r hend

theorem load_foldl_inv (rows2 : List Row) :
    ∀ (P : List Row) (g : Graph), LoadInv g P →
      ((P ++ rows2).map Row.ind).Nodup →
      LoadInv (rows2.foldl loadRow g) (P ++ rows2) := by
  induction rows2 with
  | nil =>
    intro P g hinv _
    simpa using hinv
  | cons r tl ih =>
    intro P g hinv hnd
    have hfresh : ∀ r2 ∈ P, ¬r2.ind = r.ind := by
      intro r2 hr2 heq
      rw [List.map_append] at hnd
      have hdisj := List.disjoint_of_nodup_append hnd
      refine hdisj (List.mem_map.mpr ⟨r2, hr2, rfl⟩) ?_
      rw [heq]
      exact List.mem_map.mpr ⟨r, List.mem_cons_self r tl, rfl⟩
    have hstep := loadRow_inv g P r hinv hfresh
    have hnd2 : (((P ++ [r]) ++ tl).map Row.ind).Nodup := by
      rw [List.append_assoc]
      simpa using hnd
    have hres := ih (P ++ [r]) (loadRow g r) hstep hnd2
    rw [List.append_assoc] at hres
    simpa using hres

theorem load_csv_inv (rows : List Row) (hnd : (rows.map Row.ind).Nodup) :
    LoadInv (rows.foldl loadRow emptyGraph) rows := by
  have hbase : LoadInv emptyGraph [] := by
    refine ⟨?_, ?_, ?_, ?_, ?_, ?_⟩ <;> simp [emptyGraph]
  have hres := load_foldl_inv rows [] emptyGraph hbase (by simpa using hnd)
  simpa using hres

theorem detachDelete_nodes_mem (g : Graph) (na : String) (n : Node) :
    n ∈ (detachDelete g na).nodes ↔ n ∈ g.nodes ∧ ¬n.ind = na := by
  unfold detachDelete
  simp [List.mem_filter]

theorem detachDelete_edges_mem (g : Graph) (na : String) (e : Edge) :
    e ∈ (detachDelete g na).edges ↔
      e ∈ g.edges ∧ ¬e.src = na ∧ ¬e.dst = na := by
  unfold detachDelete
  simp [List.mem_filter]

theorem detachDelete_edges_nodup (g : Graph) (na : String)
    (h : g.edges.Nodup) : (detachDelete g na).edges.Nodup := by
  unfold detachDelete
  exact h.filter _

theorem detachDelete_ind_nodup (g : Graph) (na : String)
    (h : (g.nodes.map Node.ind).Nodup) :
    ((detachDelete g na).nodes.map Node.ind).Nodup := by
  unfold detachDelete
  exact List.Nodup.sublist ((List.filter_sublist _).map Node.ind) h

/-- The full characterisation of the graph produced by `load_csv` from an
empty store, for a closed pedigree with unique non-sentinel identifiers. -/
theorem load_csv_G_spec (rows : List Row)
    (hnd : (rows.map Row.ind).Nodup)
    (hna : ∀ r ∈ rows, ¬r.ind = zeroStr)
    (hclosed : ∀ r ∈ rows,
      (r.father = zeroStr ∨ r.father ∈ rows.map Row.ind) ∧
      (r.mother = zeroStr ∨ r.mother ∈ rows.map Row.ind)) :
    (∀ n, n ∈ (load_csv emptyGraph rows zeroStr).nodes ↔
      ∃ r ∈ rows, n = ⟨r.ind, some r.sex, [personLabel]⟩) ∧
    ((load_csv emptyGraph rows zeroStr).nodes.map Node.ind).Nodup ∧
    (∀ e, e ∈ (load_csv emptyGraph rows zeroStr).edges ↔ ∃ r ∈ rows,
      (e = ⟨r.ind, EdgeType.is_child, r.father⟩ ∧ ¬r.father = zeroStr) ∨
      (e = ⟨r.ind, EdgeType.is_child, r.mother⟩ ∧ ¬r.mother = zeroStr) ∨
      (e = ⟨r.father, EdgeType.is_father, r.ind⟩ ∧ ¬r.father = zeroStr) ∨
      (e = ⟨r.mother, EdgeType.is_mother, r.ind⟩ ∧ ¬r.mother = zeroStr)) ∧
    (load_csv emptyGraph rows zeroStr).edges.Nodup := by
  obtain ⟨hlab, hgnd, hset, hsex, hemem, hend⟩ := load_csv_inv rows hnd
  have hrow_node : ∀ r ∈ rows, ∀ n ∈ (rows.foldl loadRow emptyGraph).nodes,
      n.ind = r.ind → n = ⟨r.ind, some r.sex, [personLabel]⟩ := by
    intro r hr n hn hni
    have h1 := hlab n hn
    have h2 := hsex n hn r hr hni.symm
    cases n with
    | mk i s labs =>
      simp only at h1 h2 hni
      rw [h1, h2, hni]
  refine ⟨?_, ?_, ?_, ?_⟩
  · intro n
    show n ∈ (detachDelete _ zeroStr).nodes ↔ _
    rw [detachDelete_nodes_mem]
    constructor
    · rintro ⟨hn, hnna⟩
      have hx := (hset n.ind).mp ⟨n, hn, rfl⟩
      have hxrow : ∃ r ∈ rows, r.ind = n.ind := by
        rcases hx with h | ⟨r, hr, h⟩
        · exact h
        · rcases h with hf | hm
          · rcases (hclosed r hr).1 with h0 | hmem
            · exact absurd (hf ▸ h0) hnna
            · obtain ⟨r2, hr2, hr2i⟩ := List.mem_map.mp (hf ▸ hmem)
              exact ⟨r2, hr2, hr2i⟩
          · rcases (hclosed r hr).2 with h0 | hmem
            · exact absurd (hm ▸ h0) hnna
            · obtain ⟨r2, hr2, hr2i⟩ := List.mem_map.mp (hm ▸ hmem)
              exact ⟨r2, hr2, hr2i⟩
      obtain ⟨r, hr, hri⟩ := hxrow
      exact ⟨r, hr, hrow_node r hr n hn hri.symm⟩
    · rintro ⟨r, hr, rfl⟩
      obtain ⟨n, hn, hni⟩ := (hset r.ind).mpr (Or.inl ⟨r, hr, rfl⟩)
      have heq := hrow_node r hr n hn hni
      refine ⟨heq ▸ hn, ?_⟩
      exact hna r hr
  · exact detachDelete_ind_nodup _ zeroStr hgnd
  · intro e
    show e ∈ (detachDelete _ zeroStr).edges ↔ _
    rw [detachDelete_edges_mem, hemem e]
    constructor
    · rintro ⟨⟨r, hr, hpat⟩, hsrc, hdst⟩
      refine ⟨r, hr, ?_⟩
      rcases hpat with rfl | rfl | rfl | rfl
      · exact Or.inl ⟨rfl, hdst⟩
      · exact Or.inr (Or.inl ⟨rfl, hdst⟩)
      · exact Or.inr (Or.inr (Or.inl ⟨rfl, hsrc⟩))
      · exact Or.inr (Or.inr (Or.inr ⟨rfl, hsrc⟩))
    · rintro ⟨r, hr, (⟨rfl, hne⟩ | ⟨rfl, hne⟩ | ⟨rfl, hne⟩ | ⟨rfl, hne⟩)⟩
      · exact ⟨⟨r, hr, Or.inl rfl⟩, hna r hr, hne⟩
      · exact ⟨⟨r, hr, Or.inr (Or.inl rfl)⟩, hna r hr, hne⟩
      · exact ⟨⟨r, hr, Or.inr (Or.inr (Or.inl rfl))⟩, hne, hna r hr⟩
      · exact ⟨⟨r, hr, Or.inr (Or.inr (Or.inr rfl))⟩, hne, hna r hr⟩
  · exact detachDelete_edges_nodup _ zeroStr hend

/-! ## The classified pipeline graph (for claim C2) -/

theorem contains_person_lab (b1 b2 : Bool) :
    (([personLabel] ++ (if b1 then [] else [founderLabel])) ++
      (if b2 then [] else [leafLabel])).contains personLabel = true := by
  cases b1 <;> cases b2 <;> decide

theorem contains_leaf_lab (b1 b2 : Bool) :
    (([personLabel] ++ (if b1 then [] else [founderLabel])) ++
      (if b2 then [] else [leafLabel])).contains leafLabel = !b2 := by
  cases b1 <;> cases b2 <;> decide

theorem classified_mem (G : Graph) (rows : List Row)
    (hnodes : ∀ n, n ∈ G.nodes ↔
      ∃ r ∈ rows, n = ⟨r.ind, some r.sex, [personLabel]⟩) (n2 : Node) :
    n2 ∈ (classify G).nodes ↔ ∃ r ∈ rows, n2 =
      ⟨r.ind, some r.sex,
        ([personLabel] ++ (if hasOutIsChild G r.ind then [] else [founderLabel])) ++
        (if hasInIsChild G r.ind then [] else [leafLabel])⟩ := by
  rw [classify_nodes, List.mem_map]
  constructor
  · rintro ⟨n, hn, rfl⟩
    obtain ⟨r, hr, rfl⟩ := (hnodes n).mp hn
    exact ⟨r, hr, classify_node_person G r.ind (some r.sex)⟩
  · rintro ⟨r, hr, rfl⟩
    exact ⟨⟨r.ind, some r.sex, [personLabel]⟩, (hnodes _).mpr ⟨r, hr, rfl⟩,
      classify_node_person G r.ind (some r.sex)⟩

theorem classified_personExists (G : Graph) (rows : List Row)
    (hnodes : ∀ n, n ∈ G.nodes ↔
      ∃ r ∈ rows, n = ⟨r.ind, some r.sex, [personLabel]⟩) (x : String) :
    personExists (classify G) x = true ↔ ∃ r ∈ rows, r.ind = x := by
  unfold personExists
  rw [List.any_eq_true]
  constructor
  · rintro ⟨n, hn, hm⟩
    obtain ⟨r, hr, rfl⟩ := (classified_mem G rows hnodes n).mp hn
    unfold matchesPerson at hm
    simp only [Bool.and_eq_true, decide_eq_true_eq] at hm
    exact ⟨r, hr, hm.1⟩
  · rintro ⟨r, hr, rfl⟩
    refine ⟨_, (classified_mem G rows hnodes _).mpr ⟨r, hr, rfl⟩, ?_⟩
    unfold matchesPerson
    simp [contains_person_lab]

theorem classified_leafIds (G : Graph) (rows : List Row)
    (hnodes : ∀ n, n ∈ G.nodes ↔
      ∃ r ∈ rows, n = ⟨r.ind, some r.sex, [personLabel]⟩) (x : String) :
    x ∈ leafIds (classify G) ↔
      ∃ r ∈ rows, r.ind = x ∧ hasInIsChild G x = false := by
  unfold leafIds
  rw [List.mem_map]
  constructor
  · rintro ⟨n2, hn2, rfl⟩
    rw [List.mem_filter] at hn2
    obtain ⟨r, hr, rfl⟩ := (classified_mem G rows hnodes n2).mp hn2.1
    have hc := hn2.2
    rw [contains_leaf_lab] at hc
    exact ⟨r, hr, rfl, by simpa using hc⟩
  · rintro ⟨r, hr, rfl, hleaf⟩
    refine ⟨_, List.mem_filter.mpr
      ⟨(classified_mem G rows hnodes _).mpr ⟨r, hr, rfl⟩, ?_⟩, rfl⟩
    rw [contains_leaf_lab, hleaf]
    rfl

theorem isChildRel_spec (G : Graph) (rows : List Row)
    (hedges : ∀ e, e ∈ G.edges ↔ ∃ r ∈ rows,
      (e = ⟨r.ind, EdgeType.is_child, r.father⟩ ∧ ¬r.father = zeroStr) ∨
      (e = ⟨r.ind, EdgeType.is_child, r.mother⟩ ∧ ¬r.mother = zeroStr) ∨
      (e = ⟨r.father, EdgeType.is_father, r.ind⟩ ∧ ¬r.father = zeroStr) ∨
      (e = ⟨r.mother, EdgeType.is_mother, r.ind⟩ ∧ ¬r.mother = zeroStr))
    (c p : String) :
    isChildRel G c p ↔ ∃ r ∈ rows, r.ind = c ∧
      ((r.father = p ∧ ¬r.father = zeroStr) ∨
       (r.mother = p ∧ ¬r.mother = zeroStr)) := by
  unfold isChildRel
  rw [hedges]
  constructor
  · rintro ⟨r, hr, (⟨heq, hne⟩ | ⟨heq, hne⟩ | ⟨heq, hne⟩ | ⟨heq, hne⟩)⟩ <;>
      simp only [Edge.mk.injEq] at heq
    · exact ⟨r, hr, heq.1.symm, Or.inl ⟨heq.2.2.symm, hne⟩⟩
    · exact ⟨r, hr, heq.1.symm, Or.inr ⟨heq.2.2.symm, hne⟩⟩
    · exact absurd heq.2.1 (by decide)
    · exact absurd heq.2.1 (by decide)
  · rintro ⟨r, hr, rfl, (⟨rfl, hne⟩ | ⟨rfl, hne⟩)⟩
    · exact ⟨r, hr, Or.inl ⟨rfl, hne⟩⟩
    · exact ⟨r, hr, Or.inr (Or.inl ⟨rfl, hne⟩)⟩

theorem hasIn_spec (G : Graph) (rows : List Row)
    (hedges : ∀ e, e ∈ G.edges ↔ ∃ r ∈ rows,
      (e = ⟨r.ind, EdgeType.is_child, r.father⟩ ∧ ¬r.father = zeroStr) ∨
      (e = ⟨r.ind, EdgeType.is_child, r.mother⟩ ∧ ¬r.mother = zeroStr) ∨
      (e = ⟨r.father, EdgeType.is_father, r.ind⟩ ∧ ¬r.father = zeroStr) ∨
      (e = ⟨r.mother, EdgeType.is_mother, r.ind⟩ ∧ ¬r.mother = zeroStr))
    (x : String) :
    hasInIsChild G x = true ↔ ∃ r ∈ rows,
      (r.father = x ∧ ¬r.father = zeroStr) ∨
      (r.mother = x ∧ ¬r.mother = zeroStr) := by
  unfold hasInIsChild
  rw [List.any_eq_true]
  constructor
  · rintro ⟨e, he, hcond⟩
    rw [decide_eq_true_eq] at hcond
    obtain ⟨r, hr, hpat⟩ := (hedges e).mp he
    rcases hpat with ⟨rfl, hne⟩ | ⟨rfl, hne⟩ | ⟨rfl, hne⟩ | ⟨rfl, hne⟩
    · exact ⟨r, hr, Or.inl ⟨hcond.1, hne⟩⟩
    · exact ⟨r, hr, Or.inr ⟨hcond.1, hne⟩⟩
    · simp at hcond
    · simp at hcond
  · rintro ⟨r, hr, (⟨hx, hne⟩ | ⟨hx, hne⟩)⟩
    · exact ⟨⟨r.ind, EdgeType.is_child, r.father⟩,
        (hedges _).mpr ⟨r, hr, Or.inl ⟨rfl, hne⟩⟩, by simp [hx]⟩
    · exact ⟨⟨r.ind, EdgeType.is_child, r.mother⟩,
        (hedges _).mpr ⟨r, hr, Or.inr (Or.inl ⟨rfl, hne⟩)⟩, by simp [hx]⟩

theorem reach_leaf (G : Graph) (rows : List Row)
    (hedges : ∀ e, e ∈ G.edges ↔ ∃ r ∈ rows,
      (e = ⟨r.ind, EdgeType.is_child, r.father⟩ ∧ ¬r.father = zeroStr) ∨
      (e = ⟨r.ind, EdgeType.is_child, r.mother⟩ ∧ ¬r.mother = zeroStr) ∨
      (e = ⟨r.father, EdgeType.is_father, r.ind⟩ ∧ ¬r.father = zeroStr) ∨
      (e = ⟨r.mother, EdgeType.is_mother, r.ind⟩ ∧ ¬r.mother = zeroStr))
    (rank : String → Nat)
    (hrank : ∀ r ∈ rows,
      (¬r.father = zeroStr → rank r.ind < rank r.father) ∧
      (¬r.mother = zeroStr → rank r.ind < rank r.mother)) :
    ∀ x, (∃ r ∈ rows, r.ind = x) →
      hasInIsChild G x = false ∨
      ∃ l, (∃ r ∈ rows, r.ind = l) ∧ hasInIsChild G l = false ∧
        Relation.TransGen (isChildRel G) l x := by
  suffices h : ∀ N x, rank x < N → (∃ r ∈ rows, r.ind = x) →
      hasInIsChild G x = false ∨
      ∃ l, (∃ r ∈ rows, r.ind = l) ∧ hasInIsChild G l = false ∧
        Relation.TransGen (isChildRel G) l x by
    exact fun x hx => h (rank x + 1) x (by omega) hx
  intro N
  induction N with
  | zero => intro x h; omega
  | succ N ih =>
    intro x hlt hx
    by_cases hleaf : hasInIsChild G x = false
    · exact Or.inl hleaf
    · have htrue : hasInIsChild G x = true := by simpa using hleaf
      obtain ⟨r, hr, hcase⟩ := (hasIn_spec G rows hedges x).mp htrue
      have hchild : isChildRel G r.ind x := by
        unfold isChildRel
        rw [hedges]
        rcases hcase with ⟨hfx, hne⟩ | ⟨hmx, hne⟩
        · exact ⟨r, hr, Or.inl ⟨by rw [hfx], hne⟩⟩
        · exact ⟨r, hr, Or.inr (Or.inl ⟨by rw [hmx], hne⟩)⟩
      have hrc : rank r.ind < rank x := by
        rcases hcase with ⟨hfx, hne⟩ | ⟨hmx, hne⟩
        · have h2 := (hrank r hr).1 hne
          rwa [hfx] at h2
        · have h2 := (hrank r hr).2 hne
          rwa [hmx] at h2
      rcases ih r.ind (by omega) ⟨r, hr, rfl⟩ with hcleaf | ⟨l, hl, hleaf2, ht⟩
      · exact Or.inr ⟨r.ind, ⟨r, hr, rfl⟩, hcleaf,
          Relation.TransGen.single hchild⟩
      · exact Or.inr ⟨l, hl, hleaf2, Relation.TransGen.tail ht hchild⟩

/-! ## Stored-record lemmas (for claim C2) -/

theorem nodup_map_row_eq (rows : List Row)
    (hnd : (rows.map Row.ind).Nodup) :
    ∀ r1 ∈ rows, ∀ r2 ∈ rows, r1.ind = r2.ind → r1 = r2 := by
  intro r1 h1 r2 h2 h
  exact List.inj_on_of_nodup_map hnd h1 h2 h

theorem filter_eq_singleton {α : Type} (l : List α) (p : α → Bool) (v : α)
    (hnd : l.Nodup) (hv : v ∈ l) (hpv : p v = true)
    (huniq : ∀ a ∈ l, p a = true → a = v) : l.filter p = [v] := by
  have h1 : (l.filter p).Nodup := hnd.filter p
  have hvmem : v ∈ l.filter p := List.mem_filter.mpr ⟨hv, hpv⟩
  have hall : ∀ a ∈ l.filter p, a = v := fun a ha =>
    huniq a (List.mem_filter.mp ha).1 (List.mem_filter.mp ha).2
  rcases hlf : l.filter p with _ | ⟨x, tl⟩
  · rw [hlf] at hvmem
    cases hvmem
  · rw [hlf] at hall h1
    have hx : x = v := hall x (List.mem_cons_self _ _)
    subst hx
    cases tl with
    | nil => rfl
    | cons y tl2 =>
      have hy : y = x := hall y (by simp)
      subst hy
      exact absurd (List.mem_cons_self _ _) (List.nodup_cons.mp h1).1

theorem dictSet_entries (d : List (String × Record)) (k : String) (v : Record) :
    ∀ p ∈ dictSet d k v, p ∈ d ∨ p = (k, v) := by
  intro p hp
  unfold dictSet at hp
  by_cases h : (d.find? (fun p => decide (p.1 = k))).isSome
  · rw [if_pos h] at hp
    obtain ⟨q, hq, rfl⟩ := List.mem_map.mp hp
    by_cases hqk : q.1 = k
    · right
      simp [hqk]
    · left
      simpa [hqk] using hq
  · rw [if_neg h] at hp
    rcases List.mem_append.mp hp with h2 | h2
    · exact Or.inl h2
    · exact Or.inr (List.mem_singleton.mp h2)

theorem foldFetched_entries (rs : List FetchedRow) :
    ∀ (gen : Genealogy), ∀ p ∈ (rs.foldl (fun gen r =>
        match gen.add (recordOfFetched r) with
        | some (gen2, _) => gen2
        | none => gen) gen).data,
      p ∈ gen.data ∨ ∃ r ∈ rs, p = (r.ind, recordOfFetched r) := by
  induction rs with
  | nil =>
    intro gen p hp
    exact Or.inl hp
  | cons r rs ih =>
    intro gen p hp
    rw [List.foldl_cons] at hp
    rcases ih _ p hp with hmem | ⟨r2, hr2, rfl⟩
    · have hstep : (match gen.add (recordOfFetched r) with
          | some (gen2, _) => gen2
          | none => gen).data = dictSet gen.data r.ind (recordOfFetched r) :=
        rfl
      rw [hstep] at hmem
      rcases dictSet_entries gen.data r.ind (recordOfFetched r) p hmem with
        h2 | h2
      · exact Or.inl h2
      · exact Or.inr ⟨r, List.mem_cons_self _ _, h2⟩
    · exact Or.inr ⟨r2, List.mem_cons_of_mem _ hr2, rfl⟩

theorem buildGenealogy_entries (rs : List FetchedRow) :
    ∀ p ∈ (buildGenealogy rs).data,
      ∃ r ∈ rs, p = (r.ind, recordOfFetched r) := by
  intro p hp
  rcases foldFetched_entries rs emptyGenealogy p hp with h | h
  · cases h
  · exact h

theorem inEdges_father_spec (G : Graph) (rows : List Row)
    (hnd : (rows.map Row.ind).Nodup)
    (hedges : ∀ e, e ∈ G.edges ↔ ∃ r ∈ rows,
      (e = ⟨r.ind, EdgeType.is_child, r.father⟩ ∧ ¬r.father = zeroStr) ∨
      (e = ⟨r.ind, EdgeType.is_child, r.mother⟩ ∧ ¬r.mother = zeroStr) ∨
      (e = ⟨r.father, EdgeType.is_father, r.ind⟩ ∧ ¬r.father = zeroStr) ∨
      (e = ⟨r.mother, EdgeType.is_mother, r.ind⟩ ∧ ¬r.mother = zeroStr))
    (hend : G.edges.Nodup) (r : Row) (hr : r ∈ rows) :
    (¬r.father = zeroStr →
      inEdges G EdgeType.is_father r.ind = [r.father]) ∧
    (r.father = zeroStr → inEdges G EdgeType.is_father r.ind = []) := by
  have huniq : ∀ e ∈ G.edges,
      (decide (e.dst = r.ind ∧ e.typ = EdgeType.is_father)) = true →
      e = ⟨r.father, EdgeType.is_father, r.ind⟩ ∧ ¬r.father = zeroStr := by
    intro e he hcond
    rw [decide_eq_true_eq] at hcond
    obtain ⟨r2, hr2, hpat⟩ := (hedges e).mp he
    rcases hpat with ⟨rfl, hne⟩ | ⟨rfl, hne⟩ | ⟨rfl, hne⟩ | ⟨rfl, hne⟩
    · simp at hcond
    · simp at hcond
    · have : r2 = r := nodup_map_row_eq rows hnd r2 hr2 r hr hcond.1
      subst this
      exact ⟨rfl, hne⟩
    · simp at hcond
  constructor
  · intro hne
    unfold inEdges
    rw [filter_eq_singleton G.edges _ ⟨r.father, EdgeType.is_father, r.ind⟩
      hend ((hedges _).mpr ⟨r, hr, Or.inr (Or.inr (Or.inl ⟨rfl, hne⟩))⟩)
      (by simp) (fun a ha hp => (huniq a ha hp).1)]
    rfl
  · intro h0
    unfold inEdges
    rw [List.filter_eq_nil_iff.mpr ?_]
    · rfl
    · intro e he hcond
      exact (huniq e he hcond).2 h0

theorem inEdges_mother_spec (G : Graph) (rows : List Row)
    (hnd : (rows.map Row.ind).Nodup)
    (hedges : ∀ e, e ∈ G.edges ↔ ∃ r ∈ rows,
      (e = ⟨r.ind, EdgeType.is_child, r.father⟩ ∧ ¬r.father = zeroStr) ∨
      (e = ⟨r.ind, EdgeType.is_child, r.mother⟩ ∧ ¬r.mother = zeroStr) ∨
      (e = ⟨r.father, EdgeType.is_father, r.ind⟩ ∧ ¬r.father = zeroStr) ∨
      (e = ⟨r.mother, EdgeType.is_mother, r.ind⟩ ∧ ¬r.mother = zeroStr))
    (hend : G.edges.Nodup) (r : Row) (hr : r ∈ rows) :
    (¬r.mother = zeroStr →
      inEdges G EdgeType.is_mother r.ind = [r.mother]) ∧
    (r.mother = zeroStr → inEdges G EdgeType.is_mother r.ind = []) := by
  have huniq : ∀ e ∈ G.edges,
      (decide (e.dst = r.ind ∧ e.typ = EdgeType.is_mother)) = true →
      e = ⟨r.mother, EdgeType.is_mother, r.ind⟩ ∧ ¬r.mother = zeroStr := by
    intro e he hcond
    rw [decide_eq_true_eq] at hcond
    obtain ⟨r2, hr2, hpat⟩ := (hedges e).mp he
    rcases hpat with ⟨rfl, hne⟩ | ⟨rfl, hne⟩ | ⟨rfl, hne⟩ | ⟨rfl, hne⟩
    · simp at hcond
    · simp at hcond
    · simp at hcond
    · have : r2 = r := nodup_map_row_eq rows hnd r2 hr2 r hr hcond.1
      subst this
      exact ⟨rfl, hne⟩
  constructor
  · intro hne
    unfold inEdges
    rw [filter_eq_singleton G.edges _ ⟨r.mother, EdgeType.is_mother, r.ind⟩
      hend ((hedges _).mpr ⟨r, hr, Or.inr (Or.inr (Or.inr ⟨rfl, hne⟩))⟩)
      (by simp) (fun a ha hp => (huniq a ha hp).1)]
    rfl
  · intro h0
    unfold inEdges
    rw [List.filter_eq_nil_iff.mpr ?_]
    · rfl
    · intro e he hcond
      exact (huniq e he hcond).2 h0

theorem fetched_spec (rows : List Row)
    (hnd : (rows.map Row.ind).Nodup)
    (hna : ∀ r ∈ rows, ¬r.ind = zeroStr)
    (hclosed : ∀ r ∈ rows,
      (r.father = zeroStr ∨ r.father ∈ rows.map Row.ind) ∧
      (r.mother = zeroStr ∨ r.mother ∈ rows.map Row.ind))
    (inds : List String) (r2 : FetchedRow)
    (h : r2 ∈ get_records (buildPipeline rows zeroStr) inds) :
    ∃ r ∈ rows, r2.ind = r.ind ∧
      recordOfFetched r2 =
        ⟨some r.ind, some r.father, some r.mother, some r.sex⟩ := by
  obtain ⟨hnodes, hgnd, hedges, hend⟩ := load_csv_G_spec rows hnd hna hclosed
  obtain ⟨x, hx, hr2⟩ := List.mem_flatMap.mp h
  rcases hf : (buildPipeline rows zeroStr).nodes.find?
      (fun n => matchesPerson n x) with _ | child
  · rw [hf] at hr2
    cases hr2
  · rw [hf] at hr2
    obtain ⟨f, hfm, hr3⟩ := List.mem_flatMap.mp hr2
    obtain ⟨m, hmm, rfl⟩ := List.mem_map.mp hr3
    have hchild_mem : child ∈
        (classify (load_csv emptyGraph rows zeroStr)).nodes :=
      List.mem_of_find?_eq_some hf
    have hp := List.find?_some hf
    obtain ⟨r, hr, rfl⟩ := (classified_mem _ rows hnodes child).mp hchild_mem
    have hix : r.ind = x := by
      simp only [matchesPerson, Bool.and_eq_true, decide_eq_true_eq] at hp
      exact hp.1
    subst hix
    have hie_f : inEdges (buildPipeline rows zeroStr) EdgeType.is_father
        r.ind = inEdges (load_csv emptyGraph rows zeroStr)
        EdgeType.is_father r.ind := rfl
    have hie_m : inEdges (buildPipeline rows zeroStr) EdgeType.is_mother
        r.ind = inEdges (load_csv emptyGraph rows zeroStr)
        EdgeType.is_mother r.ind := rfl
    have hfspec := inEdges_father_spec _ rows hnd hedges hend r hr
    have hmspec := inEdges_mother_spec _ rows hnd hedges hend r hr
    have hfv : f.getD zeroStr = r.father := by
      by_cases h0 : r.father = zeroStr
      · rw [hie_f, hfspec.2 h0] at hfm
        simp only [List.isEmpty_nil, if_true, List.mem_singleton] at hfm
        rw [hfm]
        exact h0.symm
      · rw [hie_f, hfspec.1 h0] at hfm
        simp at hfm
        rw [hfm]
        rfl
    have hmv : m.getD zeroStr = r.mother := by
      by_cases h0 : r.mother = zeroStr
      · rw [hie_m, hmspec.2 h0] at hmm
        simp only [List.isEmpty_nil, if_true, List.mem_singleton] at hmm
        rw [hmm]
        exact h0.symm
      · rw [hie_m, hmspec.1 h0] at hmm
        simp at hmm
        rw [hmm]
        rfl
    refine ⟨r, hr, rfl, ?_⟩
    unfold recordOfFetched
    rw [hfv, hmv]

theorem pipeline_members (rows : List Row)
    (hnd : (rows.map Row.ind).Nodup)
    (hna : ∀ r ∈ rows, ¬r.ind = zeroStr)
    (hclosed : ∀ r ∈ rows,
      (r.father = zeroStr ∨ r.father ∈ rows.map Row.ind) ∧
      (r.mother = zeroStr ∨ r.mother ∈ rows.map Row.ind))
    (rank : String → Nat)
    (hrank : ∀ r ∈ rows,
      (¬r.father = zeroStr → rank r.ind < rank r.father) ∧
      (¬r.mother = zeroStr → rank r.ind < rank r.mother)) (k : String) :
    k ∈ (reconstruct_genealogy (buildPipeline rows zeroStr)
        (leafIds (buildPipeline rows zeroStr))).keys ↔
      ∃ r ∈ rows, r.ind = k := by
  obtain ⟨hnodes, hgnd, hedges, hend⟩ := load_csv_G_spec rows hnd hna hclosed
  have hpe := classified_personExists _ rows hnodes
  rw [mem_reconstruct_keys]
  constructor
  · rintro ⟨-, hpek⟩
    exact (hpe k).mp hpek
  · intro hk
    refine ⟨?_, (hpe k).mpr hk⟩
    rcases reach_leaf _ rows hedges rank hrank k hk with
      hleaf | ⟨l, hlrow, hlleaf, ht⟩
    · right
      obtain ⟨r, hr, hri⟩ := hk
      exact (classified_leafIds _ rows hnodes k).mpr ⟨r, hr, hri, hleaf⟩
    · left
      rw [mem_get_ancestors]
      obtain ⟨rl, hrl, hrli⟩ := hlrow
      refine ⟨(hpe k).mpr hk, l,
        (classified_leafIds _ rows hnodes l).mpr ⟨rl, hrl, hrli, hlleaf⟩,
        (hpe l).mpr ⟨rl, hrl, hrli⟩, ht⟩

/-! ## Export and re-parse lemmas (for claim C2) -/

theorem dropWhile_eq_self_of (p : Char → Bool) (l : List Char)
    (h : ∀ c ∈ l, p c = false) : l.dropWhile p = l := by
  cases l with
  | nil => rfl
  | cons c tl =>
    rw [List.dropWhile_cons, h c (List.mem_cons_self _ _)]
    simp

theorem stripChars_of_clean (l : List Char)
    (h : ∀ c ∈ l, isPySpace c = false) : stripChars l = l := by
  unfold stripChars
  rw [dropWhile_eq_self_of _ l h,
    dropWhile_eq_self_of _ l.reverse (fun c hc => h c (List.mem_reverse.mp hc)),
    List.reverse_reverse]

theorem pyStrip_of_clean (s : String) (h : ∀ c ∈ s.data, isPySpace c = false) :
    pyStrip s = s := by
  unfold pyStrip
  rw [stripChars_of_clean s.data h]

theorem splitChar_no_sep (sep : Char) (l : List Char)
    (h : ∀ c ∈ l, ¬c = sep) : splitChar sep l = [l] := by
  induction l with
  | nil => rfl
  | cons c tl ih =>
    rw [splitChar]
    rw [if_neg (h c (List.mem_cons_self _ _)),
      ih (fun c2 hc2 => h c2 (List.mem_cons_of_mem _ hc2))]

theorem splitChar_append (sep : Char) (l1 l2 : List Char)
    (h : ∀ c ∈ l1, ¬c = sep) :
    splitChar sep (l1 ++ sep :: l2) = l1 :: splitChar sep l2 := by
  induction l1 with
  | nil =>
    show splitChar sep (sep :: l2) = [] :: splitChar sep l2
    rw [splitChar, if_pos rfl]
  | cons c tl ih =>
    show splitChar sep (c :: (tl ++ sep :: l2)) = _
    rw [splitChar, if_neg (h c (List.mem_cons_self _ _)),
      ih (fun c2 hc2 => h c2 (List.mem_cons_of_mem _ hc2))]

theorem data_comma : commaStr.data = [','] := rfl

theorem parseLine_concat (a b c d : String)
    (ha : cleanField a) (hb : cleanField b) (hc : cleanField c)
    (hd : cleanField d) :
    parseLine ','
      (a ++ commaStr ++ b ++ commaStr ++ c ++ commaStr ++ d) =
      .ok ⟨a, b, c, d⟩ := by
  have hdata : (a ++ commaStr ++ b ++ commaStr ++ c ++ commaStr ++ d).data =
      a.data ++ ',' :: (b.data ++ ',' :: (c.data ++ ',' :: d.data)) := by
    simp [String.data_append, data_comma]
  have hnows : ∀ ch ∈ (a ++ commaStr ++ b ++ commaStr ++ c ++ commaStr
      ++ d).data, isPySpace ch = false := by
    rw [hdata]
    intro ch hch
    simp only [List.mem_append, List.mem_cons] at hch
    rcases hch with h1 | h1 | h1 | h1 | h1 | h1 | h1
    · exact (ha ch h1).2
    · rw [h1]; rfl
    · exact (hb ch h1).2
    · rw [h1]; rfl
    · exact (hc ch h1).2
    · rw [h1]; rfl
    · exact (hd ch h1).2
  have hsplit : pySplit (pyStrip
      (a ++ commaStr ++ b ++ commaStr ++ c ++ commaStr ++ d)) ',' =
      [a, b, c, d] := by
    rw [pyStrip_of_clean _ hnows]
    unfold pySplit
    rw [hdata]
    rw [splitChar_append ',' a.data _ (fun ch hch => (ha ch hch).1),
      splitChar_append ',' b.data _ (fun ch hch => (hb ch hch).1),
      splitChar_append ',' c.data _ (fun ch hch => (hc ch hch).1),
      splitChar_no_sep ',' d.data (fun ch hch => (hd ch hch).1)]
    rfl
  unfold parseLine
  rw [hsplit]
  show (Except.ok (⟨pyStrip a, pyStrip b, pyStrip c, pyStrip d⟩ : Row) :
    Except String Row) = Except.ok ⟨a, b, c, d⟩
  rw [pyStrip_of_clean a (fun ch hch => (ha ch hch).2),
    pyStrip_of_clean b (fun ch hch => (hb ch hch).2),
    pyStrip_of_clean c (fun ch hch => (hc ch hch).2),
    pyStrip_of_clean d (fun ch hch => (hd ch hch).2)]

theorem parseAll_spec (sep : Char) : ∀ (lines : List String) (out : List Row),
    parseAll sep lines = .ok out →
    (∀ r ∈ out, ∃ l ∈ lines, parseLine sep l = .ok r) ∧
    (∀ l ∈ lines, ∃ r ∈ out, parseLine sep l = .ok r) := by
  intro lines
  induction lines with
  | nil =>
    intro out h
    have : out = [] := by
      simpa [parseAll] using h.symm
    subst this
    exact ⟨fun r hr => absurd hr (List.not_mem_nil r), fun l hl => absurd hl
      (List.not_mem_nil l)⟩
  | cons l ls ih =>
    intro out h
    rcases hl : parseLine sep l with e | r
    · rw [parseAll, hl] at h
      cases h
    · rcases hls : parseAll sep ls with e | rs
      · rw [parseAll, hl, hls] at h
        cases h
      · rw [parseAll, hl, hls] at h
        have h2 : (Except.ok (r :: rs) : Except String (List Row)) =
            Except.ok out := h
        injection h2 with h3
        subst h3
        obtain ⟨ih1, ih2⟩ := ih rs hls
        constructor
        · intro r2 hr2
          rcases List.mem_cons.mp hr2 with rfl | h2
          · exact ⟨l, List.mem_cons_self _ _, hl⟩
          · obtain ⟨l2, hl2, hpl2⟩ := ih1 r2 h2
            exact ⟨l2, List.mem_cons_of_mem _ hl2, hpl2⟩
        · intro l2 hl2
          rcases List.mem_cons.mp hl2 with rfl | h2
          · exact ⟨r, List.mem_cons_self _ _, hl⟩
          · obtain ⟨r2, hr2, hpr2⟩ := ih2 l2 h2
            exact ⟨r2, List.mem_cons_of_mem _ hr2, hpr2⟩

theorem parseAll_all_ok (sep : Char) (lines : List String)
    (h : ∀ l ∈ lines, ∃ r, parseLine sep l = .ok r) :
    ∃ out, parseAll sep lines = .ok out := by
  induction lines with
  | nil => exact ⟨[], rfl⟩
  | cons l ls ih =>
    obtain ⟨r, hr⟩ := h l (List.mem_cons_self _ _)
    obtain ⟨out, hout⟩ := ih (fun l2 hl2 => h l2 (List.mem_cons_of_mem _ hl2))
    refine ⟨r :: out, ?_⟩
    rw [parseAll, hr, hout]
    rfl

/-! ## Claim C2 -/

set_option maxHeartbeats 2000000 in
set_option maxRecDepth 100000 in
/-- Claim C2 counterexample: the one-row pedigree `(1, 2, 3, F)` has unique
identifiers, yet the ingest / reconstruct-from-leaves / export / re-parse
round trip returns three rows (the parents `2` and `3` gain rows with
sentinel parents and a `None` sex), so the tuple set differs from the
original. -/
theorem C2_counterexample :
    ∃ out, roundTrip rowsC2 = .ok out ∧ ¬out.toFinset = rowsC2.toFinset := by
  refine ⟨[⟨s2, zeroStr, zeroStr, noneStr⟩, ⟨s3, zeroStr, zeroStr, noneStr⟩,
    ⟨s1, s2, s3, sexF⟩], rfl, by decide⟩

/-- Claim C2 (amended): for a pedigree CSV with unique identifiers that is
closed (every non-sentinel parent identifier has its own row), acyclic
(witnessed by a generation rank increasing from child to parent), uses no
sentinel identifier for an individual, and has parser-clean fields, the
round trip — ingest with `BuildDB.load_csv`, classify, reconstruct from all
leaf identifiers, export with `write_csv`, re-parse with `csv_reader` —
yields exactly the original set of `(ind, father, mother, sex)` tuples; in
particular an individual with no inbound `is_father` (resp. `is_mother`)
edge gets the sentinel `"0"` back as its father (resp. mother) field. -/
theorem C2_round_trip (rows : List Row) (rank : String → Nat)
    (hnd : (rows.map Row.ind).Nodup)
    (hna : ∀ r ∈ rows, ¬r.ind = zeroStr)
    (hclosed : ∀ r ∈ rows,
      (r.father = zeroStr ∨ r.father ∈ rows.map Row.ind) ∧
      (r.mother = zeroStr ∨ r.mother ∈ rows.map Row.ind))
    (hrank : ∀ r ∈ rows,
      (¬r.father = zeroStr → rank r.ind < rank r.father) ∧
      (¬r.mother = zeroStr → rank r.ind < rank r.mother))
    (hclean : ∀ r ∈ rows, cleanRow r) :
    ∃ out, roundTrip rows = .ok out ∧ out.toFinset = rows.toFinset := by
  have hgen : reconstruct_genealogy (buildPipeline rows zeroStr)
      (leafIds (buildPipeline rows zeroStr)) =
      buildGenealogy (get_records (buildPipeline rows zeroStr)
        ((get_ancestors (buildPipeline rows zeroStr)
          (leafIds (buildPipeline rows zeroStr)) ++
          leafIds (buildPipeline rows zeroStr)).dedup)) := rfl
  have hentry : ∀ p ∈ (reconstruct_genealogy (buildPipeline rows zeroStr)
      (leafIds (buildPipeline rows zeroStr))).data,
      ∃ r ∈ rows, p = (r.ind,
        (⟨some r.ind, some r.father, some r.mother, some r.sex⟩ :
          Record)) := by
    intro p hp
    rw [hgen] at hp
    obtain ⟨r2, hr2, rfl⟩ := buildGenealogy_entries _ p hp
    obtain ⟨r, hr, hi, hrec⟩ := fetched_spec rows hnd hna hclosed _ r2 hr2
    exact ⟨r, hr, by rw [hi, hrec]⟩
  have hlinemem : ∀ l ∈ (reconstruct_genealogy (buildPipeline rows zeroStr)
      (leafIds (buildPipeline rows zeroStr))).data.map
        (fun p => rowLine p.2),
      ∃ row ∈ rows, parseLine ',' l = .ok row := by
    intro l hl
    obtain ⟨p, hp, rfl⟩ := List.mem_map.mp hl
    obtain ⟨r, hr, rfl⟩ := hentry p hp
    refine ⟨r, hr, ?_⟩
    have hcl := hclean r hr
    exact parseLine_concat r.ind r.father r.mother r.sex hcl.1 hcl.2.1
      hcl.2.2.1 hcl.2.2.2
  obtain ⟨body, hbody⟩ : ∃ b, b =
      (reconstruct_genealogy (buildPipeline rows zeroStr)
        (leafIds (buildPipeline rows zeroStr))).data.map
          (fun p => rowLine p.2) := ⟨_, rfl⟩
  have hlinemem2 : ∀ l ∈ body, ∃ row ∈ rows, parseLine ',' l = .ok row := by
    rw [hbody]
    exact hlinemem
  obtain ⟨out, hout⟩ := parseAll_all_ok ',' body
    (fun l hl => (hlinemem2 l hl).elim (fun row h2 => ⟨row, h2.2⟩))
  have hrt : roundTrip rows = parseAll ',' body := by
    rw [hbody]
    rfl
  refine ⟨out, by rw [hrt]; exact hout, ?_⟩
  obtain ⟨hs1, hs2⟩ := parseAll_spec ',' body out hout
  ext a
  simp only [List.mem_toFinset]
  constructor
  · intro ha
    obtain ⟨l, hl, hpl⟩ := hs1 a ha
    obtain ⟨row, hrow, hpl2⟩ := hlinemem2 l hl
    rw [hpl] at hpl2
    injection hpl2 with h3
    exact h3 ▸ hrow
  · intro ha
    have hkey : a.ind ∈ (reconstruct_genealogy (buildPipeline rows zeroStr)
        (leafIds (buildPipeline rows zeroStr))).keys :=
      (pipeline_members rows hnd hna hclosed rank hrank a.ind).mpr
        ⟨a, ha, rfl⟩
    obtain ⟨p, hp, hpi⟩ := List.mem_map.mp hkey
    obtain ⟨r2, hr2, rfl⟩ := hentry p hp
    have hra : r2 = a := nodup_map_row_eq rows hnd r2 hr2 a ha hpi
    subst hra
    have hl : rowLine (r2.ind,
        (⟨some r2.ind, some r2.father, some r2.mother, some r2.sex⟩ :
          Record)).2 ∈ body := by
      rw [hbody]
      exact List.mem_map.mpr ⟨_, hp, rfl⟩
    obtain ⟨r3, hr3, hpr3⟩ := hs2 _ hl
    have hcl := hclean r2 hr2
    have hparse : parseLine ',' (rowLine (r2.ind,
        (⟨some r2.ind, some r2.father, some r2.mother, some r2.sex⟩ :
          Record)).2) = .ok r2 :=
      parseLine_concat r2.ind r2.father r2.mother r2.sex hcl.1 hcl.2.1
        hcl.2.2.1 hcl.2.2.2
    rw [hparse] at hpr3
    injection hpr3 with h3
    exact h3 ▸ hr3

/-- A generation rank for the five-person sample pedigree. -/
def rankC2 (s : String) : Nat :=
  if s = s5 then 0 else if s = s3 then 1 else if s = s4 then 1 else 2

set_option maxRecDepth 40000 in
/-- Claim C2 witness: the five-person sample pedigree satisfies the amended
hypotheses and round-trips. -/
theorem C2_witness :
    ((rows5.map Row.ind).Nodup ∧
     (∀ r ∈ rows5, ¬r.ind = zeroStr) ∧
     (∀ r ∈ rows5,
       (r.father = zeroStr ∨ r.father ∈ rows5.map Row.ind) ∧
       (r.mother = zeroStr ∨ r.mother ∈ rows5.map Row.ind)) ∧
     (∀ r ∈ rows5,
       (¬r.father = zeroStr → rankC2 r.ind < rankC2 r.father) ∧
       (¬r.mother = zeroStr → rankC2 r.ind < rankC2 r.mother)) ∧
     (∀ r ∈ rows5, cleanRow r)) ∧
    ∃ out, roundTrip rows5 = .ok out ∧ out.toFinset = rows5.toFinset :=
  ⟨⟨by decide, by decide, by decide, by decide, by decide⟩,
    C2_round_trip rows5 rankC2 (by decide) (by decide) (by decide)
      (by decide) (by decide)⟩

end Pedgraph
